import Mathlib

/-!
Verification of the content-normalization and rendering pipeline of this
repository (`src/lib/utils.ts`): the hash normalizer (`normalizeContent`,
`sha256Hex`), the content classifier (`isLikelyHtml`, `looksLikeMarkdown`),
the format converters (`escapeHtml`, `toHtmlFromPlainText`,
`simpleMarkdownToHtml`, `toHtmlFromContent`), the sanitizer wrapper
(`sanitizeHtml`) and the render pipeline (`renderForPreview`).

Strings are embedded as `List Char` (`Str`).  JavaScript regular-expression
operations used by the source are embedded as executable character-list
scanners that implement the same matching semantics for the concrete
patterns appearing in the source.
-/

/-- Character-list strings, the value type flowing through the pipeline. -/
abbrev Str := List Char

/-- Coercion from Lean string literals to the embedded string type. -/
def ofStr (s : String) : Str := s.data

/-- JavaScript whitespace class (the set matched by `\s` and trimmed by
`String.prototype.trim`): tab, LF, VT, FF, CR, space, NBSP, and the
Unicode space separators, line/paragraph separators and ZWNBSP. -/
def isWs (c : Char) : Bool :=
  let n := c.toNat
  n == 9 || n == 10 || n == 11 || n == 12 || n == 13 || n == 32 ||
  n == 160 || n == 5760 || (8192 ≤ n && n ≤ 8202) || n == 8232 ||
  n == 8233 || n == 8239 || n == 8287 || n == 12288 || n == 65279

/-- Leading-whitespace trim (`String.prototype.trimStart`). -/
def trimL (s : Str) : Str := s.dropWhile isWs

/-- Trailing-whitespace trim (`String.prototype.trimEnd`), written
structurally: a character is dropped exactly when it is whitespace and
everything after it is dropped. -/
def trimR : Str → Str
  | [] => []
  | c :: rest => if trimR rest = [] ∧ isWs c then [] else c :: trimR rest

/-- Full trim (`String.prototype.trim` in `normalizeContent`). -/
def jsTrim (s : Str) : Str := trimR (trimL s)

/-- Embedding of `.replace(/\s+/g, ' ')` from `normalizeContent`: every
maximal run of whitespace characters is replaced by a single space.  The
one-pass scanner emits nothing for a whitespace character followed by
more whitespace and a single `' '` for the last character of a run, which
yields exactly the regex-replace output. -/
def collapseWs : Str → Str
  | [] => []
  | [c] => if isWs c then [' '] else [c]
  | c :: d :: rest =>
    if isWs c then
      (if isWs d then collapseWs (d :: rest) else ' ' :: collapseWs (d :: rest))
    else c :: collapseWs (d :: rest)

/-- Embedding of `String.prototype.toLowerCase` restricted to the simple
case mapping on the Basic Latin range (the only range the pipeline's
callers and the specification exercise): `A`..`Z` map to `a`..`z`, all
other characters are unchanged. -/
def lowerChar (c : Char) : Char :=
  if 65 ≤ c.toNat ∧ c.toNat ≤ 90 then Char.ofNat (c.toNat + 32) else c

/-- `normalizeContent` from `src/lib/utils.ts`: trim, collapse whitespace
runs to one space, lowercase. -/
def normalizeContent (s : Str) : Str :=
  (collapseWs (jsTrim s)).map lowerChar

/-- Words of a string: maximal runs of non-whitespace characters, in
order.  Two strings differ only in whitespace runs, edge whitespace and
character case exactly when their lowercased word lists agree. -/
def words0 : Str → List Str
  | [] => []
  | [c] => if isWs c then [] else [[c]]
  | c :: d :: rest =>
    if isWs c then words0 (d :: rest)
    else if isWs d then [c] :: words0 rest
    else
      match words0 (d :: rest) with
      | [] => [[c]]
      | w :: l => (c :: w) :: l

/-- Lowercased word list of a string; the canonical form underlying
duplicate detection. -/
def wordsOf (s : Str) : List Str := (words0 s).map (List.map lowerChar)

/-- Space-interleaved concatenation of a word list. -/
def joinSp : List Str → Str
  | [] => []
  | [w] => w
  | w :: l => w ++ ' ' :: joinSp l

/-- Whether a string starts with a whitespace character. -/
def wsHead : Str → Bool
  | [] => false
  | c :: _ => isWs c

/-- UTF-8 encoding of one Unicode scalar value, as byte values.  Models
the `TextEncoder().encode` step of `sha256Hex`. -/
def utf8Bytes (c : Char) : List Nat :=
  let n := c.toNat
  if n < 128 then [n]
  else if n < 2048 then [192 + n / 64, 128 + n % 64]
  else if n < 65536 then [224 + n / 4096, 128 + n / 64 % 64, 128 + n % 64]
  else [240 + n / 262144, 128 + n / 4096 % 64, 128 + n / 64 % 64, 128 + n % 64]

/-- Truncation to a 32-bit word. -/
def w32 (x : Nat) : Nat := x % 4294967296

/-- Right rotation of a 32-bit word. -/
def rotr32 (n x : Nat) : Nat := x / 2 ^ n + x % 2 ^ n * 2 ^ (32 - n)

/-- Logical right shift of a 32-bit word. -/
def shr32 (n x : Nat) : Nat := x / 2 ^ n

/-- Three-way bitwise exclusive or. -/
def xor3 (a b c : Nat) : Nat := (a ^^^ b) ^^^ c

/-- SHA-256 big sigma 0. -/
def bigSig0 (x : Nat) : Nat := xor3 (rotr32 2 x) (rotr32 13 x) (rotr32 22 x)

/-- SHA-256 big sigma 1. -/
def bigSig1 (x : Nat) : Nat := xor3 (rotr32 6 x) (rotr32 11 x) (rotr32 25 x)

/-- SHA-256 small sigma 0. -/
def smallSig0 (x : Nat) : Nat := xor3 (rotr32 7 x) (rotr32 18 x) (shr32 3 x)

/-- SHA-256 small sigma 1. -/
def smallSig1 (x : Nat) : Nat := xor3 (rotr32 17 x) (rotr32 19 x) (shr32 10 x)

/-- SHA-256 choose function on 32-bit words. -/
def chV (x y z : Nat) : Nat := (x &&& y) ^^^ ((4294967295 - x) &&& z)

/-- SHA-256 majority function. -/
def majV (x y z : Nat) : Nat := xor3 (x &&& y) (x &&& z) (y &&& z)

/-- SHA-256 round constants. -/
def sha256K : List Nat :=
  [1116352408, 1899447441, 3049323471, 3921009573, 961987163, 1508970993,
   2453635748, 2870763221, 3624381080, 310598401, 607225278, 1426881987,
   1925078388, 2162078206, 2614888103, 3248222580, 3835390401, 4022224774,
   264347078, 604807628, 770255983, 1249150122, 1555081692, 1996064986,
   2554220882, 2821834349, 2952996808, 3210313671, 3336571891, 3584528711,
   113926993, 338241895, 666307205, 773529912, 1294757372, 1396182291,
   1695183700, 1986661051, 2177026350, 2456956037, 2730485921, 2820302411,
   3259730800, 3345764771, 3516065817, 3600352804, 4094571909, 275423344,
   430227734, 506948616, 659060556, 883997877, 958139571, 1322822218,
   1537002063, 1747873779, 1955562222, 2024104815, 2227730452, 2361852424,
   2428436474, 2756734187, 3204031479, 3329325298]

/-- SHA-256 initial hash state. -/
def sha256H0 : List Nat :=
  [1779033703, 3144134277, 1013904242, 2773480762,
   1359893119, 2600822924, 528734635, 1541459225]

/-- Big-endian eight-byte encoding of a natural number. -/
def beBytes8 (n : Nat) : List Nat :=
  [n / 2 ^ 56 % 256, n / 2 ^ 48 % 256, n / 2 ^ 40 % 256, n / 2 ^ 32 % 256,
   n / 2 ^ 24 % 256, n / 2 ^ 16 % 256, n / 2 ^ 8 % 256, n % 256]

/-- SHA-256 message padding. -/
def sha256Pad (msg : List Nat) : List Nat :=
  msg ++ 128 :: List.replicate ((64 + 56 - (msg.length + 1) % 64) % 64) 0 ++
    beBytes8 (8 * msg.length)

/-- Split a byte list into 64-byte blocks. -/
def chunks64 : List Nat → List (List Nat)
  | [] => []
  | a :: l => ((a :: l).take 64) :: chunks64 ((a :: l).drop 64)
termination_by l => l.length
decreasing_by
  simp only [List.length_drop, List.length_cons]
  omega

/-- Big-endian 32-bit words of a byte list. -/
def beWords : List Nat → List Nat
  | a :: b :: c :: d :: rest => (((a * 256 + b) * 256 + c) * 256 + d) :: beWords rest
  | _ => []

/-- Iterated application of a function. -/
def iterN {α : Type} (f : α → α) : Nat → α → α
  | 0, a => a
  | n + 1, a => iterN f n (f a)

/-- One extension step of the SHA-256 message schedule. -/
def schedStep (w : List Nat) : List Nat :=
  let l := w.length
  w ++ [w32 (smallSig1 (w.getD (l - 2) 0) + w.getD (l - 7) 0 +
    smallSig0 (w.getD (l - 15) 0) + w.getD (l - 16) 0)]

/-- Full 64-word message schedule of one block. -/
def sha256Schedule (block : List Nat) : List Nat := iterN schedStep 48 (beWords block)

/-- One SHA-256 compression round on the eight-word working state. -/
def compressStep : List Nat → Nat × Nat → List Nat
  | [a, b, c, d, e, f, g, h], (kx, wx) =>
    let t1 := w32 (h + bigSig1 e + chV e f g + kx + wx)
    let t2 := w32 (bigSig0 a + majV a b c)
    [w32 (t1 + t2), a, b, c, w32 (d + t1), e, f, g]
  | st, _ => st

/-- SHA-256 compression of one 64-byte block into the hash state. -/
def compressBlock (hs : List Nat) (block : List Nat) : List Nat :=
  let st := ((sha256K.zip (sha256Schedule block)).foldl compressStep hs)
  (hs.zip st).map fun p => w32 (p.1 + p.2)

/-- SHA-256 digest (32 bytes) of a byte message. -/
def sha256Bytes (msg : List Nat) : List Nat :=
  ((chunks64 (sha256Pad msg)).foldl compressBlock sha256H0).foldr
    (fun wd acc => wd / 2 ^ 24 % 256 :: wd / 2 ^ 16 % 256 :: wd / 2 ^ 8 % 256 :: wd % 256 :: acc) []

/-- Lowercase hexadecimal digit. -/
def hexDigit (n : Nat) : Char := Char.ofNat (if n < 10 then 48 + n else 87 + n)

/-- `sha256Hex` from `src/lib/utils.ts`: UTF-8 encode, SHA-256 digest,
two lowercase hex digits per byte (the `padStart(2, '0')` of the source
is the fixed two-digit rendering, every byte being below 256). -/
def sha256Hex (s : Str) : Str :=
  (sha256Bytes (s.foldr (fun c acc => utf8Bytes c ++ acc) [])).foldr
    (fun b acc => hexDigit (b / 16) :: hexDigit (b % 16) :: acc) []

/-- Value of `Char.ofNat` on a scalar below the surrogate range. -/
theorem charToNatOfNat (n : Nat) (h : n < 55296) : (Char.ofNat n).toNat = n := by
  have hv : n.isValidChar := Or.inl h
  simp only [Char.ofNat, hv, dif_pos, Char.ofNatAux, Char.toNat, UInt32.ofNat', UInt32.toNat,
    BitVec.toNat_ofNatLt]

/-- Lowercasing is idempotent on characters. -/
theorem lowerChar_idem (c : Char) : lowerChar (lowerChar c) = lowerChar c := by
  by_cases h : 65 ≤ c.toNat ∧ c.toNat ≤ 90
  · have h1 : lowerChar c = Char.ofNat (c.toNat + 32) := by unfold lowerChar; rw [if_pos h]
    have ht : (Char.ofNat (c.toNat + 32)).toNat = c.toNat + 32 := charToNatOfNat _ (by omega)
    rw [h1]
    unfold lowerChar
    rw [if_neg (by rw [ht]; omega)]
  · have h1 : lowerChar c = c := by unfold lowerChar; rw [if_neg h]
    rw [h1, h1]

/-- Lowercasing does not change whether a character is whitespace. -/
theorem isWs_lowerChar (c : Char) : isWs (lowerChar c) = isWs c := by
  by_cases h : 65 ≤ c.toNat ∧ c.toNat ≤ 90
  · have h1 : lowerChar c = Char.ofNat (c.toNat + 32) := by unfold lowerChar; rw [if_pos h]
    have ht : (Char.ofNat (c.toNat + 32)).toNat = c.toNat + 32 := charToNatOfNat _ (by omega)
    have hA : isWs c = false := by simp [isWs]; omega
    have hB : isWs (Char.ofNat (c.toNat + 32)) = false := by simp [isWs, ht]; omega
    rw [h1, hA, hB]
  · have h1 : lowerChar c = c := by unfold lowerChar; rw [if_neg h]
    rw [h1]

/-- Collapsing steps over a non-whitespace head character. -/
theorem collapseWs_cons_nonws (c : Char) (t : Str) (h : isWs c = false) :
    collapseWs (c :: t) = c :: collapseWs t := by
  cases t with
  | nil => simp [collapseWs, h]
  | cons d r => simp [collapseWs, h]

/-- Right trim gives the empty string exactly on all-whitespace strings. -/
theorem trimR_eq_nil_iff (s : Str) : trimR s = [] ↔ ∀ c ∈ s, isWs c = true := by
  induction s with
  | nil => simp [trimR]
  | cons c rest ih =>
    simp only [trimR]
    constructor
    · intro h
      split at h
      · rename_i hcond
        intro x hx
        rcases List.mem_cons.mp hx with rfl | hx
        · exact hcond.2
        · exact ih.mp hcond.1 x hx
      · exact absurd h (List.cons_ne_nil _ _)
    · intro h
      rw [if_pos ⟨ih.mpr fun x hx => h x (List.mem_cons_of_mem _ hx),
        h c (List.mem_cons_self c rest)⟩]

/-- Right trim keeps a non-whitespace head character. -/
theorem trimR_cons_nonws {c : Char} {t : Str} (h : isWs c = false) :
    trimR (c :: t) = c :: trimR t := by
  simp only [trimR]
  rw [if_neg]
  intro hcon
  rw [h] at hcon
  exact Bool.false_ne_true hcon.2

/-- Right trim of a string it does not empty keeps the head character. -/
theorem trimR_cons_of_ne {c : Char} {t : Str} (h : trimR (c :: t) ≠ []) :
    trimR (c :: t) = c :: trimR t := by
  by_cases hc : trimR t = [] ∧ isWs c = true
  · exact absurd (by simp only [trimR]; rw [if_pos hc]) h
  · simp only [trimR]; rw [if_neg hc]

/-- Nonempty right trim means some character is not whitespace. -/
theorem trimR_ne_nil_exists (s : Str) (h : trimR s ≠ []) : ∃ x ∈ s, isWs x = false := by
  by_contra hcon
  push_neg at hcon
  refine h ((trimR_eq_nil_iff s).mpr fun x hx => ?_)
  have hx2 := hcon x hx
  cases hbv : isWs x
  · exact absurd hbv hx2
  · rfl

/-- Word splitting skips a whitespace head character. -/
theorem words0_cons_ws (c : Char) (r : Str) (h : isWs c = true) :
    words0 (c :: r) = words0 r := by
  cases r with
  | nil => simp [words0, h]
  | cons d r3 => simp [words0, h]

/-- Word splitting on a non-whitespace head takes the maximal run. -/
theorem words0_cons_nonws (c : Char) (r : Str) (h : isWs c = false) :
    words0 (c :: r) =
      (c :: r.takeWhile (fun d => !isWs d)) ::
        words0 (r.dropWhile (fun d => !isWs d)) := by
  induction r generalizing c with
  | nil => simp [words0, h]
  | cons d r3 ih =>
    by_cases hd : isWs d = true
    · have e1 : words0 (c :: d :: r3) = [c] :: words0 r3 := by simp [words0, h, hd]
      have e2 : words0 (d :: r3) = words0 r3 := words0_cons_ws d r3 hd
      simp [e1, List.takeWhile_cons, List.dropWhile_cons, hd, e2]
    · have hd' : isWs d = false := by simpa using hd
      have e2 := ih d hd'
      have e1 : words0 (c :: d :: r3) =
          (c :: d :: r3.takeWhile (fun x => !isWs x)) ::
            words0 (r3.dropWhile (fun x => !isWs x)) := by
        simp only [words0, h, hd']
        rw [if_neg (by simp), if_neg (by simp), e2]
      rw [e1]
      simp [List.takeWhile_cons, List.dropWhile_cons, hd']

/-- All-whitespace strings have no words. -/
theorem words0_nil_of_all_ws (s : Str) (h : ∀ c ∈ s, isWs c = true) : words0 s = [] := by
  induction s with
  | nil => rfl
  | cons c rest ih =>
    rw [words0_cons_ws c rest (h c (List.mem_cons_self c rest))]
    exact ih fun x hx => h x (List.mem_cons_of_mem _ hx)

/-- Strings with a non-whitespace character have a word. -/
theorem words0_ne_nil (s : Str) (c : Char) (hc : c ∈ s) (hw : isWs c = false) :
    words0 s ≠ [] := by
  induction s with
  | nil => cases hc
  | cons d rest ih =>
    by_cases hd : isWs d = true
    · rw [words0_cons_ws d rest hd]
      rcases List.mem_cons.mp hc with rfl | hx
      · rw [hd] at hw; cases hw
      · exact ih hx
    · have hd' : isWs d = false := by simpa using hd
      rw [words0_cons_nonws d rest hd']
      simp

/-- Concatenation form of `joinSp` on a two-or-more word list. -/
theorem joinSp_cons_cons (w x : Str) (l : List Str) :
    joinSp (w :: x :: l) = w ++ ' ' :: joinSp (x :: l) := rfl

/-- Head character of the first word moves out of `joinSp`. -/
theorem joinSp_cons_head (c : Char) (u : Str) (L : List Str) :
    joinSp ((c :: u) :: L) = c :: joinSp (u :: L) := by
  cases L with
  | nil => rfl
  | cons x l => rfl

/-- Left trim skips a whitespace head character. -/
theorem trimL_cons_ws {c : Char} {r : Str} (h : isWs c = true) :
    trimL (c :: r) = trimL r := by
  simp [trimL, List.dropWhile_cons, h]

/-- Left trim keeps a string with a non-whitespace head. -/
theorem trimL_cons_nonws {c : Char} {r : Str} (h : isWs c = false) :
    trimL (c :: r) = c :: r := by
  simp [trimL, List.dropWhile_cons, h]

/-- Left trim does not change the word list. -/
theorem words0_trimL (s : Str) : words0 (trimL s) = words0 s := by
  induction s with
  | nil => rfl
  | cons c rest ih =>
    by_cases hc : isWs c = true
    · rw [trimL_cons_ws hc, ih, words0_cons_ws c rest hc]
    · have hc' : isWs c = false := by simpa using hc
      rw [trimL_cons_nonws hc']

/-- Left-trimmed strings do not start with whitespace. -/
theorem wsHead_trimL (s : Str) : wsHead (trimL s) = false := by
  induction s with
  | nil => rfl
  | cons c rest ih =>
    by_cases hc : isWs c = true
    · rw [trimL_cons_ws hc]; exact ih
    · have hc' : isWs c = false := by simpa using hc
      rw [trimL_cons_nonws hc']
      simp [wsHead, hc']

/-- Collapsing a right-trimmed string yields the space-joined word list,
with one leading space exactly when the string both starts with
whitespace and has a word. -/
theorem collapse_trimR_aux : ∀ (n : Nat) (s : Str), s.length ≤ n →
    collapseWs (trimR s) =
      if wsHead s = true ∧ words0 s ≠ [] then ' ' :: joinSp (words0 s)
      else joinSp (words0 s) := by
  intro n
  induction n with
  | zero =>
    intro s hs
    have h0 : s = [] := List.length_eq_zero.mp (Nat.le_zero.mp hs)
    subst h0
    simp [trimR, wsHead, words0, joinSp, collapseWs]
  | succ n ih =>
    intro s hs
    cases s with
    | nil => simp [trimR, wsHead, words0, joinSp, collapseWs]
    | cons c r =>
      have hr : r.length ≤ n := by simp only [List.length_cons] at hs; omega
      by_cases hc : isWs c = true
      · by_cases hzero : trimR r = []
        · have hall : ∀ x ∈ r, isWs x = true := (trimR_eq_nil_iff r).mp hzero
          have ht : trimR (c :: r) = [] := by
            simp only [trimR]; rw [if_pos ⟨hzero, hc⟩]
          have hw : words0 (c :: r) = [] := by
            rw [words0_cons_ws c r hc]; exact words0_nil_of_all_ws r hall
          rw [ht, hw]
          simp [collapseWs, joinSp]
        · cases r with
          | nil => exact absurd rfl hzero
          | cons e r3 =>
            have htr : trimR (e :: r3) = e :: trimR r3 := trimR_cons_of_ne hzero
            have ht : trimR (c :: e :: r3) = c :: trimR (e :: r3) := by
              simp only [trimR]
              rw [if_neg fun hcon => hzero hcon.1]
            obtain ⟨x, hx, hxw⟩ := trimR_ne_nil_exists _ hzero
            have hwne : words0 (e :: r3) ≠ [] := words0_ne_nil _ x hx hxw
            have ihr := ih (e :: r3) hr
            by_cases he : isWs e = true
            · have hcol : collapseWs (c :: e :: trimR r3) = collapseWs (e :: trimR r3) := by
                simp [collapseWs, hc, he]
              rw [ht, htr, hcol, ← htr, ihr,
                if_pos ⟨(by simp [wsHead, he] : wsHead (e :: r3) = true), hwne⟩,
                words0_cons_ws c _ hc,
                if_pos ⟨(by simp [wsHead, hc] : wsHead (c :: e :: r3) = true), hwne⟩]
            · have he' : isWs e = false := by simpa using he
              have hcol : collapseWs (c :: e :: trimR r3) = ' ' :: collapseWs (e :: trimR r3) := by
                simp [collapseWs, hc, he']
              rw [ht, htr, hcol, ← htr, ihr,
                if_neg (by simp [wsHead, he'] :
                  ¬(wsHead (e :: r3) = true ∧ words0 (e :: r3) ≠ [])),
                words0_cons_ws c _ hc,
                if_pos ⟨(by simp [wsHead, hc] : wsHead (c :: e :: r3) = true), hwne⟩]
      · have hc' : isWs c = false := by simpa using hc
        have ht : trimR (c :: r) = c :: trimR r := trimR_cons_nonws hc'
        have hcol : collapseWs (c :: trimR r) = c :: collapseWs (trimR r) :=
          collapseWs_cons_nonws c _ hc'
        rw [ht, hcol]
        cases r with
        | nil =>
          simp [trimR, collapseWs, words0, joinSp, wsHead, hc']
        | cons e r3 =>
          have ihr := ih (e :: r3) hr
          by_cases he : isWs e = true
          · have hw : words0 (c :: e :: r3) = [c] :: words0 (e :: r3) := by
              rw [words0_cons_nonws c _ hc']
              simp [List.takeWhile_cons, List.dropWhile_cons, he]
            rw [ihr, hw]
            by_cases hwe : words0 (e :: r3) = []
            · rw [hwe]
              rw [if_neg (by simp), if_neg (by simp [wsHead, hc'])]
              simp [joinSp]
            · obtain ⟨m, L, hml⟩ : ∃ m L, words0 (e :: r3) = m :: L := by
                cases hml : words0 (e :: r3) with
                | nil => exact absurd hml hwe
                | cons m L => exact ⟨m, L, rfl⟩
              rw [hml]
              rw [if_pos ⟨by simp [wsHead, he], by simp⟩, if_neg (by simp [wsHead, hc'])]
              rw [joinSp_cons_cons]
              rfl
          · have he' : isWs e = false := by simpa using he
            have hw : words0 (c :: e :: r3) =
                (c :: e :: r3.takeWhile (fun d => !isWs d)) ::
                  words0 (r3.dropWhile (fun d => !isWs d)) := by
              rw [words0_cons_nonws c _ hc']
              simp [List.takeWhile_cons, List.dropWhile_cons, he']
            have hw2 : words0 (e :: r3) =
                (e :: r3.takeWhile (fun d => !isWs d)) ::
                  words0 (r3.dropWhile (fun d => !isWs d)) :=
              words0_cons_nonws e _ he'
            rw [ihr, if_neg (by simp [wsHead, he'] :
                ¬(wsHead (e :: r3) = true ∧ words0 (e :: r3) ≠ [])),
              hw, if_neg (by simp [wsHead, hc']), hw2, joinSp_cons_head,
              joinSp_cons_head, joinSp_cons_head]

/-- Collapsing the fully trimmed string is the space-joined word list. -/
theorem collapse_jsTrim (s : Str) : collapseWs (jsTrim s) = joinSp (words0 s) := by
  unfold jsTrim
  rw [collapse_trimR_aux (trimL s).length (trimL s) le_rfl,
    if_neg (by simp [wsHead_trimL]), words0_trimL]

/-- Lowercasing commutes with space-joining word lists. -/
theorem map_lower_joinSp (L : List Str) :
    (joinSp L).map lowerChar = joinSp (L.map (List.map lowerChar)) := by
  induction L with
  | nil => rfl
  | cons w l ih =>
    cases l with
    | nil => rfl
    | cons x l2 =>
      rw [joinSp_cons_cons, List.map_append, List.map_cons, ih,
        show lowerChar ' ' = ' ' from by decide]
      conv_rhs => rw [List.map_cons (List.map lowerChar) w (x :: l2),
        List.map_cons (List.map lowerChar) x l2]
      rw [joinSp_cons_cons, List.map_cons (List.map lowerChar) x l2]

/-- Characterization of `normalizeContent`: the lowercased words of the
input joined by single spaces. -/
theorem normalizeContent_words (s : Str) : normalizeContent s = joinSp (wordsOf s) := by
  unfold normalizeContent wordsOf
  rw [collapse_jsTrim, map_lower_joinSp]

/-- Words are nonempty and whitespace-free. -/
theorem words0_wordy : ∀ (n : Nat) (s : Str), s.length ≤ n →
    ∀ w ∈ words0 s, w ≠ [] ∧ ∀ c ∈ w, isWs c = false := by
  intro n
  induction n with
  | zero =>
    intro s hs
    have h0 : s = [] := List.length_eq_zero.mp (Nat.le_zero.mp hs)
    subst h0
    intro w hw
    cases hw
  | succ n ih =>
    intro s hs
    cases s with
    | nil => intro w hw; cases hw
    | cons c r =>
      have hr : r.length ≤ n := by simp only [List.length_cons] at hs; omega
      by_cases hc : isWs c = true
      · rw [words0_cons_ws c r hc]
        exact ih r hr
      · have hc' : isWs c = false := by simpa using hc
        rw [words0_cons_nonws c r hc']
        intro w hw
        rcases List.mem_cons.mp hw with rfl | hw2
        · refine ⟨by simp, ?_⟩
          intro x hx
          rcases List.mem_cons.mp hx with rfl | hx2
          · exact hc'
          · simpa using List.mem_takeWhile_imp hx2
        · exact ih _ (le_trans (List.dropWhile_sublist _).length_le hr) w hw2

/-- Take-while over a list wholly satisfying the predicate. -/
theorem takeWhile_app_all {p : Char → Bool} (u : Str) (a : Char) (t : Str)
    (hu : ∀ c ∈ u, p c = true) (ha : p a = false) :
    (u ++ a :: t).takeWhile p = u := by
  induction u with
  | nil => simp [List.takeWhile_cons, ha]
  | cons b u2 ih =>
    rw [List.cons_append, List.takeWhile_cons, if_pos (hu b (List.mem_cons_self _ _)),
      ih fun c hc => hu c (List.mem_cons_of_mem _ hc)]

/-- Drop-while over a list wholly satisfying the predicate. -/
theorem dropWhile_app_all {p : Char → Bool} (u : Str) (a : Char) (t : Str)
    (hu : ∀ c ∈ u, p c = true) (ha : p a = false) :
    (u ++ a :: t).dropWhile p = a :: t := by
  induction u with
  | nil => simp [List.dropWhile_cons, ha]
  | cons b u2 ih =>
    rw [List.cons_append, List.dropWhile_cons, if_pos (hu b (List.mem_cons_self _ _)),
      ih fun c hc => hu c (List.mem_cons_of_mem _ hc)]

/-- Take-while keeps a list wholly satisfying the predicate. -/
theorem takeWhile_all {p : Char → Bool} (u : Str) (hu : ∀ c ∈ u, p c = true) :
    u.takeWhile p = u := by
  induction u with
  | nil => rfl
  | cons b u2 ih =>
    rw [List.takeWhile_cons, if_pos (hu b (List.mem_cons_self _ _)),
      ih fun c hc => hu c (List.mem_cons_of_mem _ hc)]

/-- Word splitting of a word followed by a space and a remainder. -/
theorem words0_word_app (c : Char) (u t : Str) (h : ∀ x ∈ (c :: u), isWs x = false) :
    words0 ((c :: u) ++ ' ' :: t) = (c :: u) :: words0 t := by
  rw [List.cons_append, words0_cons_nonws c _ (h c (List.mem_cons_self _ _)),
    takeWhile_app_all u ' ' t
      (fun x hx => by simp [h x (List.mem_cons_of_mem _ hx)]) (by decide),
    dropWhile_app_all u ' ' t
      (fun x hx => by simp [h x (List.mem_cons_of_mem _ hx)]) (by decide),
    words0_cons_ws ' ' t (by decide)]

/-- Word splitting inverts space-joining on lists of nonempty
whitespace-free words. -/
theorem words0_joinSp (W : List Str)
    (h : ∀ w ∈ W, w ≠ [] ∧ ∀ c ∈ w, isWs c = false) : words0 (joinSp W) = W := by
  induction W with
  | nil => rfl
  | cons w l ih =>
    obtain ⟨hne, hnw⟩ := h w (List.mem_cons_self w l)
    obtain ⟨c, u, rfl⟩ : ∃ c u, w = c :: u := by
      cases w with
      | nil => exact absurd rfl hne
      | cons c u => exact ⟨c, u, rfl⟩
    cases l with
    | nil =>
      show words0 (c :: u) = [c :: u]
      rw [words0_cons_nonws c u (hnw c (List.mem_cons_self _ _)),
        takeWhile_all u (fun x hx => by simp [hnw x (List.mem_cons_of_mem _ hx)]),
        List.dropWhile_eq_nil_iff.mpr (fun x hx => by simp [hnw x (List.mem_cons_of_mem _ hx)])]
      rfl
    | cons x l2 =>
      rw [joinSp_cons_cons, words0_word_app c u _ hnw,
        ih fun w2 hw2 => h w2 (List.mem_cons_of_mem _ hw2)]

/-- Lowercased words are nonempty and whitespace-free. -/
theorem wordsOf_wordy (s : Str) : ∀ w ∈ wordsOf s, w ≠ [] ∧ ∀ c ∈ w, isWs c = false := by
  intro w hw
  unfold wordsOf at hw
  rcases List.mem_map.mp hw with ⟨w0, hw0, rfl⟩
  obtain ⟨hne, hnw⟩ := words0_wordy s.length s le_rfl w0 hw0
  refine ⟨?_, ?_⟩
  · intro hcon
    exact hne (List.map_eq_nil_iff.mp hcon)
  · intro c hc
    rcases List.mem_map.mp hc with ⟨c0, hc0, rfl⟩
    rw [isWs_lowerChar]
    exact hnw c0 hc0

/-- Lowercasing a word twice equals lowercasing it once. -/
theorem map_lower_idem (w : Str) : (w.map lowerChar).map lowerChar = w.map lowerChar := by
  rw [List.map_map]
  exact List.map_congr_left fun a _ => lowerChar_idem a

/-- Normalized content has the word list of the original content. -/
theorem wordsOf_norm (s : Str) : wordsOf (normalizeContent s) = wordsOf s := by
  rw [normalizeContent_words]
  show (words0 (joinSp (wordsOf s))).map (List.map lowerChar) = wordsOf s
  rw [words0_joinSp (wordsOf s) (wordsOf_wordy s)]
  unfold wordsOf
  rw [List.map_map]
  exact List.map_congr_left fun w _ => map_lower_idem w

/-- C4: for strings that differ only in whitespace runs, leading/trailing
whitespace and character case — that is, strings with the same lowercased
word sequence — `normalizeContent` produces the same string and
`sha256Hex` of the normalized content produces the identical digest, so
the duplicate-detection path treats them as equal content. -/
theorem c4_normalized_hash_eq (s1 s2 : Str) (h : wordsOf s1 = wordsOf s2) :
    normalizeContent s1 = normalizeContent s2 ∧
      sha256Hex (normalizeContent s1) = sha256Hex (normalizeContent s2) := by
  have he : normalizeContent s1 = normalizeContent s2 := by
    rw [normalizeContent_words, normalizeContent_words, h]
  exact ⟨he, by rw [he]⟩

/-- Witness for C4 at the specification's concrete pair: the two distinct
raw inputs `"Hello World"` and `"hello   world"` normalize to the same
string and hash to the identical digest. -/
theorem c4_normalized_hash_eq_witness :
    wordsOf (ofStr "Hello World") = wordsOf (ofStr "hello   world") ∧
      (normalizeContent (ofStr "Hello World") = normalizeContent (ofStr "hello   world") ∧
        sha256Hex (normalizeContent (ofStr "Hello World")) =
          sha256Hex (normalizeContent (ofStr "hello   world"))) :=
  ⟨by decide, c4_normalized_hash_eq _ _ (by decide)⟩

/-- C5: normalization is idempotent and total — renormalizing a
normalized string changes nothing, and the empty string normalizes to the
empty string. -/
theorem c5_normalize_idem_total :
    (∀ s : Str, normalizeContent (normalizeContent s) = normalizeContent s) ∧
      normalizeContent (ofStr "") = ofStr "" := by
  constructor
  · intro s
    calc normalizeContent (normalizeContent s)
        = joinSp (wordsOf (normalizeContent s)) := normalizeContent_words _
      _ = joinSp (wordsOf s) := by rw [wordsOf_norm]
      _ = normalizeContent s := (normalizeContent_words s).symm
  · rfl

/-- Whether a character is an ASCII letter of either case (what `[a-z]`
matches under the `i` flag). -/
def isAsciiLetter (c : Char) : Bool :=
  (65 ≤ c.toNat && c.toNat ≤ 90) || (97 ≤ c.toNat && c.toNat ≤ 122)

/-- Scan for the `>` closing a candidate tag before any further angle
bracket: models the `[a-z0-9]*[^<>]*>` remainder of the tag pattern,
which succeeds exactly when a `>` appears with no `<` or `>` between. -/
def closeScan : Str → Bool
  | [] => false
  | c :: rest => if c = '>' then true else if c = '<' then false else closeScan rest

/-- Tag body after `<` and an optional `/`: a letter then a closing
scan. -/
def tagFrom : Str → Bool
  | [] => false
  | c :: rest => isAsciiLetter c && closeScan rest

/-- Tag candidate right after a `<`: an optional `/` then the body. -/
def tagStart : Str → Bool
  | [] => false
  | c :: rest => if c = '/' then tagFrom rest else tagFrom (c :: rest)

/-- `isLikelyHtml` from `src/lib/utils.ts`: test of the pattern
`/<\/?[a-z][a-z0-9]*[^<>]*>/i`, scanning every position for an opening
or closing tag shape. -/
def isLikelyHtml : Str → Bool
  | [] => false
  | c :: rest => (c == '<' && tagStart rest) || isLikelyHtml rest

/-- JavaScript line terminators (`\n`, `\r`, LS, PS), the positions after
which a multiline `^` anchor matches. -/
def isLineTerm (c : Char) : Bool :=
  c.toNat == 10 || c.toNat == 13 || c.toNat == 8232 || c.toNat == 8233

/-- Scan of all positions following a line terminator. -/
def lineStartScan (p : Str → Bool) : Str → Bool
  | [] => false
  | c :: rest => (isLineTerm c && p rest) || lineStartScan p rest

/-- Test of a line-anchored pattern (`^...` with the `m` flag): the
pattern may match at the string start or after any line terminator. -/
def anyLineStart (p : Str → Bool) (s : Str) : Bool := p s || lineStartScan p s

/-- Line-start match of `#{1,6}\s+`: one to six `#` then whitespace. -/
def pHeading (s : Str) : Bool :=
  let k := (s.takeWhile (fun c => c == '#')).length
  1 ≤ k && k ≤ 6 &&
    (match s.drop k with
     | c :: _ => isWs c
     | [] => false)

/-- Line-start match of `\*\s+`. -/
def pStar : Str → Bool
  | '*' :: c :: _ => isWs c
  | _ => false

/-- Line-start match of `-\s+`. -/
def pDash : Str → Bool
  | '-' :: c :: _ => isWs c
  | _ => false

/-- Line-start match of `\d+\.\s+`. -/
def pOrdered (s : Str) : Bool :=
  let ds := s.takeWhile (fun c => c.isDigit)
  !ds.isEmpty &&
    (match s.drop ds.length with
     | '.' :: c :: _ => isWs c
     | _ => false)

/-- Backtick character test (written numerically). -/
def isTick (c : Char) : Bool := c.toNat == 96

/-- Line-start match of a fenced code block: three backticks. -/
def pFence : Str → Bool
  | a :: b :: c :: _ => isTick a && isTick b && isTick c
  | _ => false

/-- Line-start match of a blockquote marker `>`. -/
def pQuote : Str → Bool
  | '>' :: _ => true
  | _ => false

/-- Match of `\*\*[^*]+\*\*` at the current position. -/
def boldAt : Str → Bool
  | '*' :: '*' :: rest =>
    let run := rest.takeWhile (fun c => c != '*')
    !run.isEmpty &&
      (match rest.drop run.length with
       | '*' :: '*' :: _ => true
       | _ => false)
  | _ => false

/-- Anywhere match of `\*\*[^*]+\*\*`. -/
def hasBold : Str → Bool
  | [] => false
  | c :: rest => boldAt (c :: rest) || hasBold rest

/-- Match of `\*[^*]+\*` at the current position. -/
def italAt : Str → Bool
  | '*' :: rest =>
    let run := rest.takeWhile (fun c => c != '*')
    !run.isEmpty &&
      (match rest.drop run.length with
       | '*' :: _ => true
       | _ => false)
  | _ => false

/-- Anywhere match of `\*[^*]+\*`. -/
def hasItal : Str → Bool
  | [] => false
  | c :: rest => italAt (c :: rest) || hasItal rest

/-- Match of an inline code span (backtick, nonempty non-backtick run,
backtick) at the current position. -/
def codeAt : Str → Bool
  | c :: rest =>
    isTick c &&
      (let run := rest.takeWhile (fun x => !isTick x)
       !run.isEmpty &&
        (match rest.drop run.length with
         | d :: _ => isTick d
         | _ => false))
  | _ => false

/-- Anywhere match of an inline code span. -/
def hasCode : Str → Bool
  | [] => false
  | c :: rest => codeAt (c :: rest) || hasCode rest

/-- `looksLikeMarkdown` from `src/lib/utils.ts`: some pattern of the
source's list matches (headings, bullet markers, ordered-list markers,
bold, italic, inline code, fenced code, blockquote). -/
def looksLikeMarkdown (s : Str) : Bool :=
  anyLineStart pHeading s || anyLineStart pStar s || anyLineStart pDash s ||
  anyLineStart pOrdered s || hasBold s || hasItal s || hasCode s ||
  anyLineStart pFence s || anyLineStart pQuote s

/-- Hypothesis of claim C9 as written: no `<` in the string is
immediately followed by an ASCII letter. -/
def noLtLetter : Str → Bool
  | [] => true
  | [_] => true
  | c :: d :: rest => (!(c == '<' && isAsciiLetter d)) && noLtLetter (d :: rest)

/-- Amended hypothesis for C9: no `<` is immediately followed by an
ASCII letter, nor by `/` and then an ASCII letter. -/
def noTagStart : Str → Bool
  | [] => true
  | [_] => true
  | c :: d :: rest =>
    (!(c == '<' && isAsciiLetter d)) &&
    (!(c == '<' && d == '/' &&
       (match rest with
        | e :: _ => isAsciiLetter e
        | [] => false))) &&
    noTagStart (d :: rest)

/-- Tail of the amended hypothesis. -/
theorem noTagStart_tail (c : Char) (rest : Str) (h : noTagStart (c :: rest) = true) :
    noTagStart rest = true := by
  cases rest with
  | nil => rfl
  | cons d r =>
    simp only [noTagStart, Bool.and_eq_true] at h
    exact h.2

/-- Tags cannot start where the amended hypothesis holds. -/
theorem tagStart_false_of_noTagStart (c : Char) (rest : Str)
    (hc : c = '<') (h : noTagStart (c :: rest) = true) : tagStart rest = false := by
  cases rest with
  | nil => rfl
  | cons d r =>
    subst hc
    simp only [noTagStart, Bool.and_eq_true] at h
    have h1 := h.1.1
    have h2 := h.1.2
    simp only [tagStart]
    by_cases hd : d = '/'
    · rw [if_pos hd]
      cases r with
      | nil => rfl
      | cons e r2 =>
        subst hd
        simp at h2
        simp [tagFrom, h2]
    · rw [if_neg hd]
      simp at h1
      simp [tagFrom, h1]
/-- Fuel induction for the amended C9 statement. -/
theorem c9_aux : ∀ (n : Nat) (s : Str), s.length ≤ n →
    noTagStart s = true → isLikelyHtml s = false := by
  intro n
  induction n with
  | zero =>
    intro s hs _
    have h0 : s = [] := List.length_eq_zero.mp (Nat.le_zero.mp hs)
    subst h0
    rfl
  | succ n ih =>
    intro s hs hno
    cases s with
    | nil => rfl
    | cons c rest =>
      have hr : rest.length ≤ n := by simp only [List.length_cons] at hs; omega
      show ((c == '<' && tagStart rest) || isLikelyHtml rest) = false
      rw [Bool.or_eq_false_iff]
      constructor
      · by_cases hc : c = '<'
        · rw [tagStart_false_of_noTagStart c rest hc hno, Bool.and_false]
        · simp [hc]
      · exact ih rest hr (noTagStart_tail c rest hno)

/-- C9 counterexample: in `"</a>"` no `<` is immediately followed by a
letter (the `<` is followed by `/`), yet `isLikelyHtml` returns true, so
the claim as stated fails. -/
theorem c9_counterexample :
    noLtLetter (ofStr "</a>") = true ∧ isLikelyHtml (ofStr "</a>") = true := by
  constructor
  · decide
  · decide

/-- C9 (amended): when no `<` is immediately followed by an ASCII letter
nor by `/` and then an ASCII letter, `isLikelyHtml` returns false, so such
prose takes the plain-text conversion path. -/
theorem c9_no_false_positive (s : Str) (h : noTagStart s = true) :
    isLikelyHtml s = false :=
  c9_aux s.length s le_rfl h

/-- Witness for C9 at the claim's prose example. -/
theorem c9_no_false_positive_witness :
    noTagStart (ofStr "compare a < b and a > b") = true ∧
      isLikelyHtml (ofStr "compare a < b and a > b") = false :=
  ⟨by decide, c9_no_false_positive _ (by decide)⟩

/-- Entity replacement of one character under HTML text-node
serialization: the DOM round-trip in `escapeHtml`
(`div.textContent = text; div.innerHTML`) escapes `&`, `<`, `>` and
NBSP and leaves every other character (quotes included) unchanged. -/
def escChar (c : Char) : Str :=
  if c = '&' then ofStr "&amp;"
  else if c = '<' then ofStr "&lt;"
  else if c = '>' then ofStr "&gt;"
  else if c.toNat = 160 then ofStr "&nbsp;"
  else [c]

/-- `escapeHtml` from `src/lib/utils.ts`: entity replacement applied to
every character. -/
def escapeHtml : Str → Str
  | [] => []
  | c :: rest => escChar c ++ escapeHtml rest

/-- First pass of line-ending normalization: `.replace(/\r\n/g, '\n')`. -/
def crlfToLf : Str → Str
  | [] => []
  | '\r' :: '\n' :: rest => '\n' :: crlfToLf rest
  | c :: rest => c :: crlfToLf rest

/-- Second pass of line-ending normalization: `.replace(/\r/g, '\n')`. -/
def crToLf : Str → Str
  | [] => []
  | c :: rest => (if c = '\r' then '\n' else c) :: crToLf rest

/-- Line-ending normalization of `toHtmlFromPlainText`. -/
def normNl (s : Str) : Str := crToLf (crlfToLf s)

/-- Remainder of a paragraph-separator match after its initial `\n`:
`\s*\n` matched greedily, i.e. up to the last `\n` inside the whitespace
run that follows.  Returns the suffix after the match when one exists. -/
def sepTail (s : Str) : Option Str :=
  let run := s.takeWhile isWs
  let tailLen := (run.reverse.takeWhile (fun c => !(c == '\n'))).length
  if tailLen = run.length then none
  else some (s.drop (run.length - tailLen))

/-- Leftmost match of the paragraph separator `/\n\s*\n/`: the prefix
before the match and the suffix after it. -/
def findSep : Str → Option (Str × Str)
  | [] => none
  | c :: rest =>
    if c = '\n' then
      match sepTail rest with
      | some r2 => some ([], r2)
      | none =>
        match findSep rest with
        | some (pre, post) => some (c :: pre, post)
        | none => none
    else
      match findSep rest with
      | some (pre, post) => some (c :: pre, post)
      | none => none

/-- Fueled splitting on the paragraph separator (`split(/\n\s*\n/)`);
each match consumes at least two characters, so fuel equal to the string
length suffices. -/
def splitSepF : Nat → Str → List Str
  | 0, s => [s]
  | fuel + 1, s =>
    match findSep s with
    | none => [s]
    | some (pre, post) => pre :: splitSepF fuel post

/-- `split(/\n\s*\n/)` of the source. -/
def splitSep (s : Str) : List Str := splitSepF s.length s

/-- `.replace(/\n/g, '<br>')` of the source. -/
def nlToBr : Str → Str
  | [] => []
  | c :: rest => if c = '\n' then ofStr "<br>" ++ nlToBr rest else c :: nlToBr rest

/-- Paragraph wrapping `<p>...</p>` of the source. -/
def wrapP (p : Str) : Str := ofStr "<p>" ++ p ++ ofStr "</p>"

/-- `join('')` of the source. -/
def joinAll : List Str → Str
  | [] => []
  | x :: l => x ++ joinAll l

/-- `toHtmlFromPlainText` from `src/lib/utils.ts`: normalize line
endings, escape entities, split into paragraphs on blank lines, drop
blank paragraphs, convert inner newlines to `<br>` and wrap each
paragraph. -/
def toHtmlFromPlainText (s : Str) : Str :=
  if s = [] then []
  else
    joinAll (((splitSep (escapeHtml (normNl s))).filter
        (fun p => !(jsTrim p).isEmpty)).map
      (fun p => wrapP (nlToBr (jsTrim p))))

/-- Whether a string contains no angle bracket. -/
def noAngle (s : Str) : Bool := s.all (fun c => !(c == '<') && !(c == '>'))

/-- Scanner accepting strings in which every angle bracket belongs to an
inserted `<p>`, `</p>` or `<br>` wrapper tag. -/
def wrapOnlyTags : Str → Bool
  | [] => true
  | c :: r =>
    if c = '<' then
      match r with
      | 'p' :: '>' :: r2 => wrapOnlyTags r2
      | '/' :: 'p' :: '>' :: r2 => wrapOnlyTags r2
      | 'b' :: 'r' :: '>' :: r2 => wrapOnlyTags r2
      | _ => false
    else if c = '>' then false
    else wrapOnlyTags r

/-- Escaped text contains no angle bracket: the entities contain none
and `<`/`>` themselves are replaced. -/
theorem escapeHtml_no_angle (s : Str) : noAngle (escapeHtml s) = true := by
  induction s with
  | nil => rfl
  | cons d rest ih =>
    show noAngle (escChar d ++ escapeHtml rest) = true
    have hd : noAngle (escChar d) = true := by
      by_cases h1 : d = '&'
      · simp [escChar, h1]; decide
      · by_cases h2 : d = '<'
        · simp [escChar, h1, h2]; decide
        · by_cases h3 : d = '>'
          · simp [escChar, h1, h2, h3]; decide
          · by_cases h4 : d.toNat = 160
            · simp [escChar, h1, h2, h3, h4]; decide
            · simp [escChar, noAngle, h1, h2, h3, h4]
    simp only [noAngle, List.all_append, Bool.and_eq_true]
    exact ⟨hd, ih⟩

/-- Scanner step over a character that is not an angle bracket. -/
theorem wrapOnlyTags_cons_other (c : Char) (z : Str) (h1 : ¬c = '<') (h2 : ¬c = '>') :
    wrapOnlyTags (c :: z) = wrapOnlyTags z := by
  rw [wrapOnlyTags.eq_def]
  simp only []
  rw [if_neg h1, if_neg h2]

/-- Converting newlines of bracket-free text inserts only `<br>` tags. -/
theorem wrapOnlyTags_nlToBr (t : Str) (r : Str) (h : noAngle t = true) :
    wrapOnlyTags (nlToBr t ++ r) = wrapOnlyTags r := by
  induction t with
  | nil => rfl
  | cons c t2 ih =>
    simp only [noAngle, List.all_cons, Bool.and_eq_true] at h
    obtain ⟨⟨hc1, hc2⟩, ht⟩ := h
    have hc1' : ¬c = '<' := by simpa using hc1
    have hc2' : ¬c = '>' := by simpa using hc2
    have ih2 := ih (by simpa [noAngle] using ht)
    by_cases hn : c = '\n'
    · show wrapOnlyTags ((if c = '\n' then ofStr "<br>" ++ nlToBr t2 else c :: nlToBr t2) ++ r) = _
      rw [if_pos hn]
      show wrapOnlyTags ('<' :: 'b' :: 'r' :: '>' :: (nlToBr t2 ++ r)) = wrapOnlyTags r
      show wrapOnlyTags (nlToBr t2 ++ r) = wrapOnlyTags r
      exact ih2
    · show wrapOnlyTags ((if c = '\n' then ofStr "<br>" ++ nlToBr t2 else c :: nlToBr t2) ++ r) = _
      rw [if_neg hn]
      show wrapOnlyTags (c :: (nlToBr t2 ++ r)) = wrapOnlyTags r
      rw [wrapOnlyTags_cons_other c _ hc1' hc2']
      exact ih2

/-- Wrapping a bracket-free paragraph inserts only wrapper tags. -/
theorem wrapOnlyTags_wrapP (t : Str) (r : Str) (h : noAngle t = true) :
    wrapOnlyTags (wrapP (nlToBr t) ++ r) = wrapOnlyTags r := by
  have hsh : wrapP (nlToBr t) ++ r =
      '<' :: 'p' :: '>' :: (nlToBr t ++ ('<' :: '/' :: 'p' :: '>' :: r)) := by
    simp [wrapP, ofStr, List.append_assoc]
  rw [hsh]
  show wrapOnlyTags (nlToBr t ++ ('<' :: '/' :: 'p' :: '>' :: r)) = wrapOnlyTags r
  rw [wrapOnlyTags_nlToBr t _ h]
  rfl

/-- Members of right-trimmed strings come from the original string. -/
theorem trimR_mem (s : Str) (c : Char) (h : c ∈ trimR s) : c ∈ s := by
  induction s with
  | nil => cases h
  | cons d rest ih =>
    simp only [trimR] at h
    split at h
    · cases h
    · rcases List.mem_cons.mp h with rfl | h2
      · exact List.mem_cons_self _ _
      · exact List.mem_cons_of_mem _ (ih h2)

/-- Members of fully trimmed strings come from the original string. -/
theorem jsTrim_mem (s : Str) (c : Char) (h : c ∈ jsTrim s) : c ∈ s := by
  unfold jsTrim at h
  have h2 := trimR_mem _ _ h
  unfold trimL at h2
  exact (List.dropWhile_sublist isWs).mem h2

/-- Members of separator-split prefixes and suffixes come from the
original string. -/
theorem findSep_mem (s : Str) (pre post : Str) (h : findSep s = some (pre, post)) :
    (∀ c ∈ pre, c ∈ s) ∧ (∀ c ∈ post, c ∈ s) := by
  induction s generalizing pre with
  | nil => cases h
  | cons d rest ih =>
    simp only [findSep] at h
    by_cases hd : d = '\n'
    · rw [if_pos hd] at h
      cases hst : sepTail rest with
      | some r2 =>
        rw [hst] at h
        injection h with h
        injection h with h1 h2
        subst h1; subst h2
        refine ⟨fun c hc => absurd hc (List.not_mem_nil c), fun c hc => ?_⟩
        have hr2 : ∀ x ∈ r2, x ∈ rest := by
          intro x hx
          have : r2 = rest.drop ((rest.takeWhile isWs).length -
              ((rest.takeWhile isWs).reverse.takeWhile (fun c => !(c == '\n'))).length) := by
            simp only [sepTail] at hst
            split at hst
            · cases hst
            · injection hst with hst
              exact hst.symm
          rw [this] at hx
          exact (List.drop_sublist _ _).mem hx
        exact List.mem_cons_of_mem _ (hr2 c hc)
      | none =>
        rw [hst] at h
        cases hfs : findSep rest with
        | none => rw [hfs] at h; cases h
        | some pp =>
          obtain ⟨p1, p2⟩ := pp
          rw [hfs] at h
          injection h with h
          injection h with h1 h2
          subst h1; subst h2
          obtain ⟨ha, hb⟩ := ih p1 hfs
          constructor
          · intro c hc
            rcases List.mem_cons.mp hc with rfl | h2
            · exact List.mem_cons_self _ _
            · exact List.mem_cons_of_mem _ (ha c h2)
          · exact fun c hc => List.mem_cons_of_mem _ (hb c hc)
    · rw [if_neg hd] at h
      cases hfs : findSep rest with
      | none => rw [hfs] at h; cases h
      | some pp =>
        obtain ⟨p1, p2⟩ := pp
        rw [hfs] at h
        injection h with h
        injection h with h1 h2
        subst h1; subst h2
        obtain ⟨ha, hb⟩ := ih p1 hfs
        constructor
        · intro c hc
          rcases List.mem_cons.mp hc with rfl | h2
          · exact List.mem_cons_self _ _
          · exact List.mem_cons_of_mem _ (ha c h2)
        · exact fun c hc => List.mem_cons_of_mem _ (hb c hc)

/-- Members of split pieces come from the original string. -/
theorem splitSepF_mem : ∀ (fuel : Nat) (s : Str) (p : Str), p ∈ splitSepF fuel s →
    ∀ c ∈ p, c ∈ s := by
  intro fuel
  induction fuel with
  | zero =>
    intro s p hp c hc
    simp only [splitSepF, List.mem_singleton] at hp
    subst hp
    exact hc
  | succ n ih =>
    intro s p hp c hc
    simp only [splitSepF] at hp
    cases hfs : findSep s with
    | none =>
      rw [hfs] at hp
      simp only [List.mem_singleton] at hp
      subst hp
      exact hc
    | some pp =>
      obtain ⟨pre, post⟩ := pp
      rw [hfs] at hp
      obtain ⟨hmem1, hmem2⟩ := findSep_mem s pre post hfs
      rcases List.mem_cons.mp hp with rfl | h2
      · exact hmem1 c hc
      · exact hmem2 c (ih post p h2 c hc)

/-- Members of split pieces come from the original string. -/
theorem splitSep_mem (s : Str) (p : Str) (hp : p ∈ splitSep s) : ∀ c ∈ p, c ∈ s :=
  splitSepF_mem s.length s p hp

/-- Substrings of bracket-free strings are bracket-free. -/
theorem noAngle_of_subset (y p : Str) (hy : noAngle y = true) (hsub : ∀ c ∈ p, c ∈ y) :
    noAngle p = true := by
  rw [noAngle, List.all_eq_true] at hy ⊢
  exact fun c hc => hy c (hsub c hc)

/-- Joining wrapped bracket-free paragraphs yields wrapper-only markup. -/
theorem wrapOnlyTags_joinAll (ps : List Str)
    (h : ∀ p ∈ ps, noAngle (jsTrim p) = true) :
    wrapOnlyTags (joinAll (ps.map (fun p => wrapP (nlToBr (jsTrim p))))) = true := by
  induction ps with
  | nil => rfl
  | cons p l ih =>
    show wrapOnlyTags (wrapP (nlToBr (jsTrim p)) ++
      joinAll (l.map (fun p => wrapP (nlToBr (jsTrim p))))) = true
    rw [wrapOnlyTags_wrapP _ _ (h p (List.mem_cons_self _ _))]
    exact ih fun q hq => h q (List.mem_cons_of_mem _ hq)

/-- C6 counterexample: the double-quote character is not replaced by an
HTML entity — `escapeHtml` leaves it unchanged and it appears verbatim in
the converter output, so the claim that quote characters are escaped
fails. -/
theorem c6_counterexample :
    escapeHtml (ofStr "\"") = ofStr "\"" ∧
      toHtmlFromPlainText (ofStr "\"") = ofStr "<p>\"</p>" := by
  constructor
  · decide
  · decide

/-- C6 (amended): the plain-text converter escapes `&`, `<`, `>` (and
NBSP) — but not quote characters — before any tag wrapping: escaped text
contains no angle bracket, every angle bracket of the converter output
belongs to an inserted `<p>`, `</p>` or `<br>` wrapper tag, and the
entity-significant characters map to their entities. -/
theorem c6_escape_before_wrapping (s : Str) :
    noAngle (escapeHtml s) = true ∧
      wrapOnlyTags (toHtmlFromPlainText s) = true ∧
      escapeHtml (ofStr "&<>\u00A0") = ofStr "&amp;&lt;&gt;&nbsp;" := by
  refine ⟨escapeHtml_no_angle s, ?_, by decide⟩
  unfold toHtmlFromPlainText
  by_cases hs : s = []
  · rw [if_pos hs]; rfl
  · rw [if_neg hs]
    apply wrapOnlyTags_joinAll
    intro p hp
    have hp2 : p ∈ splitSep (escapeHtml (normNl s)) := List.mem_of_mem_filter hp
    have hsub := splitSep_mem _ p hp2
    exact noAngle_of_subset _ _ (escapeHtml_no_angle (normNl s))
      (fun c hc => hsub c (jsTrim_mem p c hc))

/-- Full-length take-while means the predicate holds everywhere. -/
theorem takeWhile_length_eq_iff {p : Char → Bool} (m : Str) :
    (m.takeWhile p).length = m.length ↔ ∀ c ∈ m, p c = true := by
  constructor
  · intro h
    have hpre : m.takeWhile p = m := (List.takeWhile_prefix p).eq_of_length h
    intro c hc
    rw [← hpre] at hc
    exact List.mem_takeWhile_imp hc
  · intro h
    rw [takeWhile_all m h]

/-- The separator tail matches exactly when a newline occurs in the
whitespace run. -/
theorem sepTail_isSome_iff (y : Str) :
    (sepTail y).isSome = true ↔ '\n' ∈ y.takeWhile isWs := by
  unfold sepTail
  by_cases h : (((y.takeWhile isWs).reverse.takeWhile (fun c => !(c == '\n'))).length =
      (y.takeWhile isWs).length)
  · rw [if_pos h]
    simp only [Option.isSome_none, Bool.false_eq_true, false_iff]
    intro hmem
    have hall := (takeWhile_length_eq_iff (y.takeWhile isWs).reverse).mp
      (by rw [List.length_reverse]; exact h)
    have hx := hall '\n' (List.mem_reverse.mpr hmem)
    simp at hx
  · rw [if_neg h]
    simp only [Option.isSome_some, true_iff]
    by_contra hmem
    refine h ?_
    have hall := takeWhile_all (p := fun c => !(c == '\n')) (y.takeWhile isWs).reverse
      (fun c hc => by
        have hcm : c ∈ y.takeWhile isWs := List.mem_reverse.mp hc
        simp only [Bool.not_eq_true']
        exact beq_eq_false_iff_ne.mpr (fun hcon => hmem (hcon ▸ hcm)))
    rw [hall, List.length_reverse]

/-- Entity form of a whitespace character other than NBSP: unchanged. -/
theorem escChar_of_ws (d : Char) (hws : isWs d = true) (hnb : ¬d.toNat = 160) :
    escChar d = [d] := by
  have h1 : ¬d = '&' := fun hcon => by subst hcon; exact absurd hws (by decide)
  have h2 : ¬d = '<' := fun hcon => by subst hcon; exact absurd hws (by decide)
  have h3 : ¬d = '>' := fun hcon => by subst hcon; exact absurd hws (by decide)
  unfold escChar
  rw [if_neg h1, if_neg h2, if_neg h3, if_neg hnb]

/-- Entity form of any character starts with a non-whitespace character
when the character itself is not ordinary whitespace. -/
theorem escChar_head (d : Char) (h : isWs d = false ∨ d.toNat = 160) :
    ∃ e t, escChar d = e :: t ∧ isWs e = false := by
  unfold escChar
  by_cases h1 : d = '&'
  · rw [if_pos h1]; exact ⟨'&', _, rfl, by decide⟩
  · rw [if_neg h1]
    by_cases h2 : d = '<'
    · rw [if_pos h2]; exact ⟨'&', _, rfl, by decide⟩
    · rw [if_neg h2]
      by_cases h3 : d = '>'
      · rw [if_pos h3]; exact ⟨'&', _, rfl, by decide⟩
      · rw [if_neg h3]
        by_cases h4 : d.toNat = 160
        · rw [if_pos h4]; exact ⟨'&', _, rfl, by decide⟩
        · rw [if_neg h4]
          rcases h with h | h
          · exact ⟨d, [], rfl, h⟩
          · exact absurd h h4

/-- Newlines in the whitespace prefix of escaped text come from the
whitespace prefix of the text. -/
theorem nl_ws_prefix_escape (y : Str)
    (h : '\n' ∈ (escapeHtml y).takeWhile isWs) : '\n' ∈ y.takeWhile isWs := by
  induction y with
  | nil => cases h
  | cons d y2 ih =>
    by_cases hws : isWs d = true
    · by_cases hnb : d.toNat = 160
      · obtain ⟨e, t, he, hens⟩ := escChar_head d (Or.inr hnb)
        have hesc : escapeHtml (d :: y2) = e :: (t ++ escapeHtml y2) := by
          show escChar d ++ escapeHtml y2 = _
          rw [he, List.cons_append]
        rw [hesc, List.takeWhile_cons, if_neg (by simp [hens])] at h
        cases h
      · have hesc : escapeHtml (d :: y2) = d :: escapeHtml y2 := by
          show escChar d ++ escapeHtml y2 = _
          rw [escChar_of_ws d hws hnb, List.cons_append, List.nil_append]
        rw [hesc, List.takeWhile_cons, if_pos hws] at h
        rw [List.takeWhile_cons, if_pos hws]
        rcases List.mem_cons.mp h with rfl | h2
        · exact List.mem_cons_self _ _
        · exact List.mem_cons_of_mem _ (ih h2)
    · obtain ⟨e, t, he, hens⟩ := escChar_head d (Or.inl (by simpa using hws))
      have hesc : escapeHtml (d :: y2) = e :: (t ++ escapeHtml y2) := by
        show escChar d ++ escapeHtml y2 = _
        rw [he, List.cons_append]
      rw [hesc, List.takeWhile_cons, if_neg (by simp [hens])] at h
      cases h

/-- Prepending a character preserves the existence of a separator. -/
theorem findSep_cons_isSome (c : Char) (rest : Str)
    (h : (findSep rest).isSome = true) : (findSep (c :: rest)).isSome = true := by
  simp only [findSep]
  by_cases hc : c = '\n'
  · rw [if_pos hc]
    cases hst : sepTail rest with
    | some r2 => rfl
    | none =>
      cases hfs : findSep rest with
      | none => rw [hfs] at h; cases h
      | some pp => obtain ⟨p1, p2⟩ := pp; rfl
  · rw [if_neg hc]
    cases hfs : findSep rest with
    | none => rw [hfs] at h; cases h
    | some pp => obtain ⟨p1, p2⟩ := pp; rfl

/-- Prepending newline-free text does not change whether a separator
exists. -/
theorem findSep_append_isSome (u t : Str) (hu : '\n' ∉ u) :
    (findSep (u ++ t)).isSome = (findSep t).isSome := by
  induction u with
  | nil => rfl
  | cons a u2 ih =>
    have ha : ¬a = '\n' := fun hcon => hu (hcon ▸ List.mem_cons_self _ _)
    have ih2 := ih fun hmem => hu (List.mem_cons_of_mem _ hmem)
    show (findSep (a :: (u2 ++ t))).isSome = (findSep t).isSome
    simp only [findSep]
    rw [if_neg ha]
    cases hfs : findSep (u2 ++ t) with
    | none => rw [hfs] at ih2; exact ih2
    | some pp => obtain ⟨p1, p2⟩ := pp; rw [hfs] at ih2; exact ih2

/-- Entities contain no newline: a separator in escaped text implies one
in the text. -/
theorem findSep_escape_some (x : Str) (h : (findSep (escapeHtml x)).isSome = true) :
    (findSep x).isSome = true := by
  induction x with
  | nil => cases h
  | cons c x2 ih =>
    by_cases hc : c = '\n'
    · subst hc
      have hesc : escapeHtml ('\n' :: x2) = '\n' :: escapeHtml x2 := by
        show escChar '\n' ++ escapeHtml x2 = _
        rw [show escChar '\n' = ['\n'] from by decide, List.cons_append, List.nil_append]
      rw [hesc] at h
      simp only [findSep, if_pos rfl] at h ⊢
      cases hst : sepTail (escapeHtml x2) with
      | some r2 =>
        have hnl : '\n' ∈ (escapeHtml x2).takeWhile isWs :=
          (sepTail_isSome_iff _).mp (by rw [hst]; rfl)
        have hst2 : (sepTail x2).isSome = true :=
          (sepTail_isSome_iff _).mpr (nl_ws_prefix_escape x2 hnl)
        cases hst3 : sepTail x2 with
        | none => rw [hst3] at hst2; cases hst2
        | some r3 => rfl
      | none =>
        rw [hst] at h
        have h2 : (findSep (escapeHtml x2)).isSome = true := by
          cases hfs : findSep (escapeHtml x2) with
          | none => rw [hfs] at h; cases h
          | some pp => rfl
        have h3 := ih h2
        cases hst3 : sepTail x2 with
        | some r3 => rfl
        | none =>
          cases hfs : findSep x2 with
          | none => rw [hfs] at h3; cases h3
          | some pp => obtain ⟨p1, p2⟩ := pp; rfl
    · -- escChar c contains no newline
      have hnl : '\n' ∉ escChar c := by
        unfold escChar
        by_cases h1 : c = '&'
        · rw [if_pos h1]; decide
        · rw [if_neg h1]
          by_cases h2 : c = '<'
          · rw [if_pos h2]; decide
          · rw [if_neg h2]
            by_cases h3 : c = '>'
            · rw [if_pos h3]; decide
            · rw [if_neg h3]
              by_cases h4 : c.toNat = 160
              · rw [if_pos h4]; decide
              · rw [if_neg h4]
                intro hmem
                rcases List.mem_singleton.mp hmem with rfl
                exact hc rfl
      have heq : (findSep (escChar c ++ escapeHtml x2)).isSome =
          (findSep (escapeHtml x2)).isSome := findSep_append_isSome _ _ hnl
      have h2 : (findSep (escapeHtml x2)).isSome = true := by
        rw [← heq]; exact h
      exact findSep_cons_isSome c x2 (ih h2)

/-- Splitting a separator-free string yields the single piece. -/
theorem splitSep_none (y : Str) (h : findSep y = none) : splitSep y = [y] := by
  unfold splitSep
  cases hl : y.length with
  | zero => rfl
  | succ n => simp [splitSepF, h]

/-- Non-whitespace characters survive CRLF normalization. -/
theorem crlfToLf_mem_nonws (y : Str) (c : Char) (hc : c ∈ y) (hw : isWs c = false) :
    c ∈ crlfToLf y := by
  induction y using crlfToLf.induct with
  | case1 => cases hc
  | case2 rest ih =>
    rcases List.mem_cons.mp hc with rfl | h2
    · exact absurd hw (by decide)
    · rcases List.mem_cons.mp h2 with rfl | h3
      · exact absurd hw (by decide)
      · exact List.mem_cons_of_mem _ (ih h3)
  | case3 d rest hne ih =>
    rw [crlfToLf.eq_3 d rest hne]
    rcases List.mem_cons.mp hc with rfl | h2
    · exact List.mem_cons_self _ _
    · exact List.mem_cons_of_mem _ (ih h2)

/-- Non-whitespace characters survive CR normalization. -/
theorem crToLf_mem_nonws (y : Str) (c : Char) (hc : c ∈ y) (hw : isWs c = false) :
    c ∈ crToLf y := by
  induction y with
  | nil => cases hc
  | cons a y2 ih =>
    rcases List.mem_cons.mp hc with rfl | h2
    · have ha : ¬c = '\r' := fun hcon => absurd hw (by rw [hcon]; decide)
      show c ∈ (if c = '\r' then '\n' else c) :: crToLf y2
      rw [if_neg ha]
      exact List.mem_cons_self _ _
    · exact List.mem_cons_of_mem _ (ih h2)

/-- Escaped text keeps a non-whitespace character when the text has
one. -/
theorem escape_nonws_exists (y : Str) (c : Char) (hc : c ∈ y) (hw : isWs c = false) :
    ∃ d ∈ escapeHtml y, isWs d = false := by
  induction y with
  | nil => cases hc
  | cons a y2 ih =>
    rcases List.mem_cons.mp hc with rfl | h2
    · obtain ⟨e, t, he, hens⟩ := escChar_head c (Or.inl hw)
      refine ⟨e, ?_, hens⟩
      show e ∈ escChar c ++ escapeHtml y2
      rw [he]
      exact List.mem_cons_self _ _
    · obtain ⟨d, hd, hdw⟩ := ih h2
      exact ⟨d, List.mem_append_right _ hd, hdw⟩

/-- Non-whitespace characters survive the left trim. -/
theorem trimL_mem_nonws (y : Str) (c : Char) (hc : c ∈ y) (hw : isWs c = false) :
    c ∈ trimL y := by
  induction y with
  | nil => cases hc
  | cons a y2 ih =>
    by_cases ha : isWs a = true
    · rw [trimL_cons_ws ha]
      rcases List.mem_cons.mp hc with rfl | h2
      · rw [ha] at hw; cases hw
      · exact ih h2
    · rw [trimL_cons_nonws (by simpa using ha)]
      exact hc

/-- Strings with a non-whitespace character trim to nonempty strings. -/
theorem jsTrim_ne_nil (y : Str) (c : Char) (hc : c ∈ y) (hw : isWs c = false) :
    jsTrim y ≠ [] := by
  unfold jsTrim
  intro hcon
  have hall := (trimR_eq_nil_iff (trimL y)).mp hcon
  exact absurd (hall c (trimL_mem_nonws y c hc hw)) (by rw [hw]; simp)

/-- C8 counterexample: the single-space string contains no blank-line
separator, yet the converter returns the empty string — zero paragraph
wrappers rather than exactly one. -/
theorem c8_counterexample :
    findSep (ofStr " ") = none ∧ ofStr " " ≠ [] ∧
      toHtmlFromPlainText (ofStr " ") = [] := by
  refine ⟨by decide, by decide, by decide⟩

/-- C8 (amended): a string with at least one non-whitespace character
and no blank-line separator converts to exactly one paragraph wrapper,
whose body is the HTML-escaped, newline-normalized, trimmed content with
inner newlines as `<br>` tags. -/
theorem c8_single_paragraph (s : Str)
    (hnb : findSep (normNl s) = none)
    (hex : ∃ c ∈ s, isWs c = false) :
    toHtmlFromPlainText s = wrapP (nlToBr (jsTrim (escapeHtml (normNl s)))) := by
  obtain ⟨c0, hc0, hc0w⟩ := hex
  have hsne : ¬s = [] := by intro hcon; subst hcon; cases hc0
  have hesc : findSep (escapeHtml (normNl s)) = none := by
    cases hfs : findSep (escapeHtml (normNl s)) with
    | none => rfl
    | some pp =>
      have h1 : (findSep (escapeHtml (normNl s))).isSome = true := by rw [hfs]; rfl
      have h2 := findSep_escape_some _ h1
      rw [hnb] at h2
      cases h2
  have hmem : c0 ∈ normNl s :=
    crToLf_mem_nonws _ c0 (crlfToLf_mem_nonws s c0 hc0 hc0w) hc0w
  obtain ⟨d, hd, hdw⟩ := escape_nonws_exists (normNl s) c0 hmem hc0w
  have htne : jsTrim (escapeHtml (normNl s)) ≠ [] :=
    jsTrim_ne_nil _ d hd hdw
  unfold toHtmlFromPlainText
  rw [if_neg hsne, splitSep_none _ hesc]
  have hfil : (!(jsTrim (escapeHtml (normNl s))).isEmpty) = true := by
    cases hemp : jsTrim (escapeHtml (normNl s)) with
    | nil => exact absurd hemp htne
    | cons a t => rfl
  rw [List.filter_cons, if_pos hfil]
  show wrapP (nlToBr (jsTrim (escapeHtml (normNl s)))) ++ joinAll [] = _
  rw [joinAll, List.append_nil]

/-- Witness for C8 at a concrete two-line input. -/
theorem c8_single_paragraph_witness :
    findSep (normNl (ofStr "a\nb")) = none ∧ (∃ c ∈ ofStr "a\nb", isWs c = false) ∧
      toHtmlFromPlainText (ofStr "a\nb") =
        wrapP (nlToBr (jsTrim (escapeHtml (normNl (ofStr "a\nb"))))) :=
  ⟨by decide, by decide, c8_single_paragraph _ (by decide) (by decide)⟩

/-- Segments of a string, one per line, each retaining its terminating
line-terminator character; multiline `^` anchors match exactly at
segment starts. -/
def segsBy : Str → List Str
  | [] => []
  | c :: rest =>
    if isLineTerm c then [c] :: segsBy rest
    else
      match segsBy rest with
      | [] => [[c]]
      | seg :: l => (c :: seg) :: l

/-- Replacement of `/^PRE (.*$)/m` inside one segment: when the segment
starts with the marker, the line body up to the terminator is wrapped in
the opening and closing tags. -/
def headingSeg (pre opn cls : Str) (seg : Str) : Str :=
  if pre.isPrefixOf seg then
    let rest := seg.drop pre.length
    let body := rest.takeWhile (fun c => !isLineTerm c)
    opn ++ body ++ cls ++ rest.drop body.length
  else seg

/-- Global line-anchored heading replacement
(`.replace(/^PRE (.*$)/gm, ...)`). -/
def replaceHeading (pre opn cls : Str) (s : Str) : Str :=
  joinAll ((segsBy s).map (headingSeg pre opn cls))

/-- Match of `\*\*([^*]+)\*\*` at the current position, returning the
captured run and the remainder after the match. -/
def matchSpan2 (s : Str) : Option (Str × Str) :=
  match s with
  | a :: b :: rest =>
    if a = '*' ∧ b = '*' then
      let run := rest.takeWhile (fun c => c != '*')
      if run.isEmpty then none
      else
        match rest.drop run.length with
        | e :: f :: r2 => if e = '*' ∧ f = '*' then some (run, r2) else none
        | _ => none
    else none
  | _ => none

/-- Fueled global replacement of bold spans
(`.replace(/\*\*([^*]+)\*\*/g, '<strong>$1</strong>')`); the scanner
advances one character when no match starts at the current position, so
fuel equal to the string length suffices. -/
def replaceBoldF : Nat → Str → Str
  | 0, s => s
  | _ + 1, [] => []
  | fuel + 1, c :: rest =>
    match matchSpan2 (c :: rest) with
    | some (run, r2) => ofStr "<strong>" ++ run ++ ofStr "</strong>" ++ replaceBoldF fuel r2
    | none => c :: replaceBoldF fuel rest

/-- Global bold replacement. -/
def replaceBold (s : Str) : Str := replaceBoldF s.length s

/-- Match of `D([^D]+)D` for a one-character delimiter at the current
position. -/
def matchSpan1 (d : Char) (s : Str) : Option (Str × Str) :=
  match s with
  | a :: rest =>
    if a = d then
      let run := rest.takeWhile (fun c => !(c == d))
      if run.isEmpty then none
      else
        match rest.drop run.length with
        | e :: r2 => if e = d then some (run, r2) else none
        | _ => none
    else none
  | _ => none

/-- Fueled global replacement of one-character-delimited spans. -/
def replaceSpanF (d : Char) (opn cls : Str) : Nat → Str → Str
  | 0, s => s
  | _ + 1, [] => []
  | fuel + 1, c :: rest =>
    match matchSpan1 d (c :: rest) with
    | some (run, r2) => opn ++ run ++ cls ++ replaceSpanF d opn cls fuel r2
    | none => c :: replaceSpanF d opn cls fuel rest

/-- Global italic replacement
(`.replace(/\*([^*]+)\*/g, '<em>$1</em>')`). -/
def replaceItalic (s : Str) : Str := replaceSpanF '*' (ofStr "<em>") (ofStr "</em>") s.length s

/-- Global inline-code replacement (backtick-delimited spans to
`<code>`). -/
def replaceCode (s : Str) : Str :=
  replaceSpanF (Char.ofNat 96) (ofStr "<code>") (ofStr "</code>") s.length s

/-- Paragraph assembly shared by the converters: split on blank lines,
drop blank paragraphs, trim, convert newlines to `<br>`, wrap. -/
def paragraphize (s : Str) : Str :=
  joinAll (((splitSep s).filter (fun p => !(jsTrim p).isEmpty)).map
    (fun p => wrapP (nlToBr (jsTrim p))))

/-- `simpleMarkdownToHtml` from `src/lib/utils.ts`: empty input returns
empty; otherwise headings `###`, `##`, `#` (in that order), then bold,
italic and inline-code spans, then paragraph assembly. -/
def simpleMarkdownToHtml (markdown : Str) : Str :=
  if markdown = [] then []
  else
    paragraphize (replaceCode (replaceItalic (replaceBold
      (replaceHeading (ofStr "# ") (ofStr "<h1>") (ofStr "</h1>")
        (replaceHeading (ofStr "## ") (ofStr "<h2>") (ofStr "</h2>")
          (replaceHeading (ofStr "### ") (ofStr "<h3>") (ofStr "</h3>") markdown))))))

/-- Newline-free strings have no paragraph separator. -/
theorem findSep_none_of_no_nl (y : Str) (h : '\n' ∉ y) : findSep y = none := by
  induction y with
  | nil => rfl
  | cons c rest ih =>
    have hc : ¬c = '\n' := fun hcon => h (hcon ▸ List.mem_cons_self _ _)
    simp only [findSep]
    rw [if_neg hc, ih fun hm => h (List.mem_cons_of_mem _ hm)]

/-- Newline-free strings are unchanged by line-break conversion. -/
theorem nlToBr_noop (y : Str) (h : '\n' ∉ y) : nlToBr y = y := by
  induction y with
  | nil => rfl
  | cons c rest ih =>
    have hc : ¬c = '\n' := fun hcon => h (hcon ▸ List.mem_cons_self _ _)
    show (if c = '\n' then ofStr "<br>" ++ nlToBr rest else c :: nlToBr rest) = c :: rest
    rw [if_neg hc, ih fun hm => h (List.mem_cons_of_mem _ hm)]

/-- Paragraph assembly of a separator-free non-blank string is exactly
one wrapped paragraph. -/
theorem paragraphize_single (y : Str) (hf : findSep y = none) (ht : jsTrim y ≠ []) :
    paragraphize y = wrapP (nlToBr (jsTrim y)) := by
  unfold paragraphize
  rw [splitSep_none _ hf]
  have hfil : (!(jsTrim y).isEmpty) = true := by
    cases hemp : jsTrim y with
    | nil => exact absurd hemp ht
    | cons a t => rfl
  rw [List.filter_cons, if_pos hfil]
  show wrapP (nlToBr (jsTrim y)) ++ joinAll [] = _
  rw [joinAll, List.append_nil]

/-- Terminator-free nonempty strings form a single segment. -/
theorem segsBy_single (y : Str) (hy : y ≠ []) (h : ∀ c ∈ y, isLineTerm c = false) :
    segsBy y = [y] := by
  induction y with
  | nil => exact absurd rfl hy
  | cons c rest ih =>
    have hc : isLineTerm c = false := h c (List.mem_cons_self _ _)
    show (if isLineTerm c then [c] :: segsBy rest
      else match segsBy rest with
        | [] => [[c]]
        | seg :: l => (c :: seg) :: l) = [c :: rest]
    rw [hc]
    cases hrest : rest with
    | nil => rfl
    | cons d r2 =>
      rw [← hrest, ih (by rw [hrest]; exact List.cons_ne_nil _ _)
        (fun x hx => h x (List.mem_cons_of_mem _ hx))]
      simp

/-- Failed bold match at a position not starting with an asterisk. -/
theorem matchSpan2_none (c : Char) (rest : Str) (hc : ¬c = '*') :
    matchSpan2 (c :: rest) = none := by
  cases rest with
  | nil => rfl
  | cons d r2 =>
    show (if c = '*' ∧ d = '*' then _ else none) = none
    rw [if_neg fun hcon => hc hcon.1]

/-- Bold replacement is the identity on asterisk-free strings. -/
theorem replaceBoldF_noop : ∀ (fuel : Nat) (s : Str), '*' ∉ s →
    replaceBoldF fuel s = s := by
  intro fuel
  induction fuel with
  | zero => intro s _; rfl
  | succ n ih =>
    intro s hs
    cases s with
    | nil => rfl
    | cons c rest =>
      have hc : ¬c = '*' := fun hcon => hs (hcon ▸ List.mem_cons_self _ _)
      show (match matchSpan2 (c :: rest) with
        | some (run, r2) => ofStr "<strong>" ++ run ++ ofStr "</strong>" ++ replaceBoldF n r2
        | none => c :: replaceBoldF n rest) = c :: rest
      rw [matchSpan2_none c rest hc, ih rest fun hm => hs (List.mem_cons_of_mem _ hm)]

/-- Failed one-character-span match at a position not starting with the
delimiter. -/
theorem matchSpan1_none (d c : Char) (rest : Str) (hc : ¬c = d) :
    matchSpan1 d (c :: rest) = none := by
  show (if c = d then _ else none) = none
  rw [if_neg hc]

/-- One-character-span replacement is the identity on delimiter-free
strings. -/
theorem replaceSpanF_noop (d : Char) (opn cls : Str) :
    ∀ (fuel : Nat) (s : Str), d ∉ s → replaceSpanF d opn cls fuel s = s := by
  intro fuel
  induction fuel with
  | zero => intro s _; rfl
  | succ n ih =>
    intro s hs
    cases s with
    | nil => rfl
    | cons c rest =>
      have hc : ¬c = d := fun hcon => hs (hcon ▸ List.mem_cons_self _ _)
      show (match matchSpan1 d (c :: rest) with
        | some (run, r2) => opn ++ run ++ cls ++ replaceSpanF d opn cls n r2
        | none => c :: replaceSpanF d opn cls n rest) = c :: rest
      rw [matchSpan1_none d c rest hc, ih rest fun hm => hs (List.mem_cons_of_mem _ hm)]

/-- Right trim keeps a string ending in a non-whitespace character. -/
theorem trimR_snoc_nonws (u : Str) (a : Char) (h : isWs a = false) :
    trimR (u ++ [a]) = u ++ [a] := by
  induction u with
  | nil =>
    show (if trimR [] = [] ∧ isWs a then [] else a :: trimR []) = [a]
    rw [if_neg fun hcon => by rw [h] at hcon; exact Bool.false_ne_true hcon.2]
    rfl
  | cons c u2 ih =>
    show (if trimR (u2 ++ [a]) = [] ∧ isWs c then [] else c :: trimR (u2 ++ [a])) = c :: (u2 ++ [a])
    rw [ih]
    rw [if_neg fun hcon => List.append_ne_nil_of_right_ne_nil u2 (List.cons_ne_nil a []) hcon.1]

/-- Heading replacement on a terminator-free nonempty line acts on that
line alone. -/
theorem replaceHeading_single (pre opn cls y : Str) (hy : y ≠ [])
    (h : ∀ c ∈ y, isLineTerm c = false) :
    replaceHeading pre opn cls y = headingSeg pre opn cls y := by
  unfold replaceHeading
  rw [segsBy_single y hy h]
  show headingSeg pre opn cls y ++ joinAll [] = _
  rw [joinAll, List.append_nil]

/-- Every list is a prefix of itself extended. -/
theorem isPrefixOf_append_self (u v : Str) : u.isPrefixOf (u ++ v) = true := by
  induction u with
  | nil => simp [List.isPrefixOf]
  | cons a u2 ih =>
    show (a == a && u2.isPrefixOf (u2 ++ v)) = true
    simp [ih]

/-- Heading segment with its marker present. -/
theorem headingSeg_pos (pre opn cls t : Str) (ht : ∀ c ∈ t, isLineTerm c = false) :
    headingSeg pre opn cls (pre ++ t) = opn ++ t ++ cls := by
  unfold headingSeg
  rw [if_pos (isPrefixOf_append_self pre t)]
  show opn ++ ((pre ++ t).drop pre.length).takeWhile (fun c => !isLineTerm c) ++ cls ++
      ((pre ++ t).drop pre.length).drop
        (((pre ++ t).drop pre.length).takeWhile (fun c => !isLineTerm c)).length =
    opn ++ t ++ cls
  rw [List.drop_left]
  rw [takeWhile_all t (fun c hc => by rw [ht c hc]; rfl), List.drop_length, List.append_nil]

/-- Heading segment without its marker. -/
theorem headingSeg_neg (pre opn cls y : Str) (h : pre.isPrefixOf y = false) :
    headingSeg pre opn cls y = y := by
  unfold headingSeg
  rw [if_neg fun hcon => Bool.false_ne_true (h ▸ hcon)]

/-- Trim is the identity when both end characters are not whitespace. -/
theorem jsTrim_eq_self (y : Str) (hy : y ≠ [])
    (hhead : isWs (y.head hy) = false) (hlast : isWs (y.getLast hy) = false) :
    jsTrim y = y := by
  unfold jsTrim
  have htl : trimL y = y := by
    cases y with
    | nil => exact absurd rfl hy
    | cons c rest => exact trimL_cons_nonws hhead
  rw [htl]
  conv_lhs => rw [← List.dropLast_append_getLast hy]
  rw [trimR_snoc_nonws _ _ hlast]
  exact List.dropLast_append_getLast hy

/-- Span passes and paragraph assembly of a clean single line. -/
theorem md_spans_paragraph (r : Str) (hterm : ∀ c ∈ r, isLineTerm c = false)
    (hstar : '*' ∉ r) (htick : Char.ofNat 96 ∉ r) (htr : jsTrim r ≠ []) :
    paragraphize (replaceCode (replaceItalic (replaceBold r))) =
      wrapP (nlToBr (jsTrim r)) := by
  unfold replaceBold replaceItalic replaceCode
  rw [replaceBoldF_noop _ r hstar]
  rw [replaceSpanF_noop '*' (ofStr "<em>") (ofStr "</em>") _ r hstar]
  rw [replaceSpanF_noop (Char.ofNat 96) (ofStr "<code>") (ofStr "</code>") _ r htick]
  exact paragraphize_single r
    (findSep_none_of_no_nl r fun hm => absurd (hterm '\n' hm) (by decide)) htr

/-- Append of a cons is nonempty. -/
theorem cons_append_ne_nil (c : Char) (u v : Str) : (c :: u) ++ v ≠ [] := by
  rw [List.cons_append]
  exact List.cons_ne_nil _ _

/-- Pointwise facts extend over appends. -/
theorem forall_mem_append {P : Char → Prop} (u v : Str) (hu : ∀ c ∈ u, P c)
    (hv : ∀ c ∈ v, P c) : ∀ c ∈ u ++ v, P c := by
  intro c hc
  rcases List.mem_append.mp hc with h | h
  · exact hu c h
  · exact hv c h

/-- Absence of a character extends over appends. -/
theorem notMemAppend {a : Char} (u v : Str) (hu : a ∉ u) (hv : a ∉ v) :
    a ∉ u ++ v := fun hm => (List.mem_append.mp hm).elim hu hv

/-- C7 (amended): the Markdown converter handles heading levels 1-3
only: for a marker-free title line (no line terminators, asterisks or
backticks), `#`, `##` and `###` lines become `<h1>`/`<h2>`/`<h3>`
elements inside the paragraph wrapper, while `####`, `#####` and
`######` lines are left as literal paragraph text. -/
theorem c7_heading_levels (t : Str)
    (ht : ∀ c ∈ t, isLineTerm c = false ∧ ¬c = '*' ∧ isTick c = false) :
    simpleMarkdownToHtml (ofStr "# " ++ t) = wrapP (ofStr "<h1>" ++ t ++ ofStr "</h1>") ∧
    simpleMarkdownToHtml (ofStr "## " ++ t) = wrapP (ofStr "<h2>" ++ t ++ ofStr "</h2>") ∧
    simpleMarkdownToHtml (ofStr "### " ++ t) = wrapP (ofStr "<h3>" ++ t ++ ofStr "</h3>") ∧
    simpleMarkdownToHtml (ofStr "#### " ++ t) = wrapP (jsTrim (ofStr "#### " ++ t)) ∧
    simpleMarkdownToHtml (ofStr "##### " ++ t) = wrapP (jsTrim (ofStr "##### " ++ t)) ∧
    simpleMarkdownToHtml (ofStr "###### " ++ t) = wrapP (jsTrim (ofStr "###### " ++ t)) := by
  have htterm : ∀ c ∈ t, isLineTerm c = false := fun c hc => (ht c hc).1
  have htstar : '*' ∉ t := fun hm => (ht '*' hm).2.1 rfl
  have httick : Char.ofNat 96 ∉ t := fun hm => by
    have h2 := (ht _ hm).2.2
    rw [show isTick (Char.ofNat 96) = true from by decide] at h2
    cases h2
  refine ⟨?_, ?_, ?_, ?_, ?_, ?_⟩
  · -- level 1
    have hne : (ofStr "# " ++ t) ≠ [] := cons_append_ne_nil '#' (ofStr " ") t
    have hterm1 : ∀ c ∈ ofStr "# " ++ t, isLineTerm c = false :=
      forall_mem_append _ _ (by decide) htterm
    have hrne : (ofStr "<h1>" ++ t ++ ofStr "</h1>") ≠ [] :=
      List.append_ne_nil_of_right_ne_nil _ (by decide)
    have hrterm : ∀ c ∈ ofStr "<h1>" ++ t ++ ofStr "</h1>", isLineTerm c = false :=
      forall_mem_append _ _ (forall_mem_append _ _ (by decide) htterm) (by decide)
    have hrstar : '*' ∉ ofStr "<h1>" ++ t ++ ofStr "</h1>" :=
      notMemAppend _ _ (notMemAppend _ _ (by decide) htstar) (by decide)
    have hrtick : Char.ofNat 96 ∉ ofStr "<h1>" ++ t ++ ofStr "</h1>" :=
      notMemAppend _ _ (notMemAppend _ _ (by decide) httick) (by decide)
    have hjs : jsTrim (ofStr "<h1>" ++ t ++ ofStr "</h1>") =
        ofStr "<h1>" ++ t ++ ofStr "</h1>" := by
      refine jsTrim_eq_self _ hrne ?_ ?_
      · exact (show isWs '<' = false by decide)
      · rw [List.getLast_append_of_ne_nil (by decide)]
        decide
    unfold simpleMarkdownToHtml
    rw [if_neg hne,
      replaceHeading_single _ _ _ _ hne hterm1, headingSeg_neg _ _ _ _ (by rfl),
      replaceHeading_single _ _ _ _ hne hterm1, headingSeg_neg _ _ _ _ (by rfl),
      replaceHeading_single _ _ _ _ hne hterm1,
      headingSeg_pos (ofStr "# ") (ofStr "<h1>") (ofStr "</h1>") t htterm,
      md_spans_paragraph _ hrterm hrstar hrtick (by rw [hjs]; exact hrne), hjs,
      nlToBr_noop _ (fun hm => absurd (hrterm '\n' hm) (by decide))]
  · -- level 2
    have hne : (ofStr "## " ++ t) ≠ [] := cons_append_ne_nil '#' (ofStr "# ") t
    have hterm1 : ∀ c ∈ ofStr "## " ++ t, isLineTerm c = false :=
      forall_mem_append _ _ (by decide) htterm
    have hrne : (ofStr "<h2>" ++ t ++ ofStr "</h2>") ≠ [] :=
      List.append_ne_nil_of_right_ne_nil _ (by decide)
    have hrterm : ∀ c ∈ ofStr "<h2>" ++ t ++ ofStr "</h2>", isLineTerm c = false :=
      forall_mem_append _ _ (forall_mem_append _ _ (by decide) htterm) (by decide)
    have hrstar : '*' ∉ ofStr "<h2>" ++ t ++ ofStr "</h2>" :=
      notMemAppend _ _ (notMemAppend _ _ (by decide) htstar) (by decide)
    have hrtick : Char.ofNat 96 ∉ ofStr "<h2>" ++ t ++ ofStr "</h2>" :=
      notMemAppend _ _ (notMemAppend _ _ (by decide) httick) (by decide)
    have hrne2 : (ofStr "<h2>" ++ t ++ ofStr "</h2>") ≠ [] := hrne
    have hjs : jsTrim (ofStr "<h2>" ++ t ++ ofStr "</h2>") =
        ofStr "<h2>" ++ t ++ ofStr "</h2>" := by
      refine jsTrim_eq_self _ hrne ?_ ?_
      · exact (show isWs '<' = false by decide)
      · rw [List.getLast_append_of_ne_nil (by decide)]
        decide
    unfold simpleMarkdownToHtml
    rw [if_neg hne,
      replaceHeading_single _ _ _ _ hne hterm1, headingSeg_neg _ _ _ _ (by rfl),
      replaceHeading_single _ _ _ _ hne hterm1,
      headingSeg_pos (ofStr "## ") (ofStr "<h2>") (ofStr "</h2>") t htterm,
      replaceHeading_single _ _ _ _ hrne2 hrterm, headingSeg_neg _ _ _ _ (by rfl),
      md_spans_paragraph _ hrterm hrstar hrtick (by rw [hjs]; exact hrne), hjs,
      nlToBr_noop _ (fun hm => absurd (hrterm '\n' hm) (by decide))]
  · -- level 3
    have hne : (ofStr "### " ++ t) ≠ [] := cons_append_ne_nil '#' (ofStr "## ") t
    have hterm1 : ∀ c ∈ ofStr "### " ++ t, isLineTerm c = false :=
      forall_mem_append _ _ (by decide) htterm
    have hrne : (ofStr "<h3>" ++ t ++ ofStr "</h3>") ≠ [] :=
      List.append_ne_nil_of_right_ne_nil _ (by decide)
    have hrterm : ∀ c ∈ ofStr "<h3>" ++ t ++ ofStr "</h3>", isLineTerm c = false :=
      forall_mem_append _ _ (forall_mem_append _ _ (by decide) htterm) (by decide)
    have hrstar : '*' ∉ ofStr "<h3>" ++ t ++ ofStr "</h3>" :=
      notMemAppend _ _ (notMemAppend _ _ (by decide) htstar) (by decide)
    have hrtick : Char.ofNat 96 ∉ ofStr "<h3>" ++ t ++ ofStr "</h3>" :=
      notMemAppend _ _ (notMemAppend _ _ (by decide) httick) (by decide)
    have hjs : jsTrim (ofStr "<h3>" ++ t ++ ofStr "</h3>") =
        ofStr "<h3>" ++ t ++ ofStr "</h3>" := by
      refine jsTrim_eq_self _ hrne ?_ ?_
      · exact (show isWs '<' = false by decide)
      · rw [List.getLast_append_of_ne_nil (by decide)]
        decide
    unfold simpleMarkdownToHtml
    rw [if_neg hne,
      replaceHeading_single _ _ _ _ hne hterm1,
      headingSeg_pos (ofStr "### ") (ofStr "<h3>") (ofStr "</h3>") t htterm,
      replaceHeading_single _ _ _ _ hrne hrterm, headingSeg_neg _ _ _ _ (by rfl),
      replaceHeading_single _ _ _ _ hrne hrterm, headingSeg_neg _ _ _ _ (by rfl),
      md_spans_paragraph _ hrterm hrstar hrtick (by rw [hjs]; exact hrne), hjs,
      nlToBr_noop _ (fun hm => absurd (hrterm '\n' hm) (by decide))]
  · -- level 4: not converted
    have hne : (ofStr "#### " ++ t) ≠ [] := cons_append_ne_nil '#' (ofStr "### ") t
    have hterm1 : ∀ c ∈ ofStr "#### " ++ t, isLineTerm c = false :=
      forall_mem_append _ _ (by decide) htterm
    have hstar1 : '*' ∉ ofStr "#### " ++ t := notMemAppend _ _ (by decide) htstar
    have htick1 : Char.ofNat 96 ∉ ofStr "#### " ++ t := notMemAppend _ _ (by decide) httick
    have htr1 : jsTrim (ofStr "#### " ++ t) ≠ [] :=
      jsTrim_ne_nil _ '#' (List.mem_append_left _ (by decide)) (by decide)
    unfold simpleMarkdownToHtml
    rw [if_neg hne,
      replaceHeading_single _ _ _ _ hne hterm1, headingSeg_neg _ _ _ _ (by rfl),
      replaceHeading_single _ _ _ _ hne hterm1, headingSeg_neg _ _ _ _ (by rfl),
      replaceHeading_single _ _ _ _ hne hterm1, headingSeg_neg _ _ _ _ (by rfl),
      md_spans_paragraph _ hterm1 hstar1 htick1 htr1,
      nlToBr_noop _ (fun hm => absurd (hterm1 '\n' (jsTrim_mem _ _ hm)) (by decide))]
  · -- level 5
    have hne : (ofStr "##### " ++ t) ≠ [] := cons_append_ne_nil '#' (ofStr "#### ") t
    have hterm1 : ∀ c ∈ ofStr "##### " ++ t, isLineTerm c = false :=
      forall_mem_append _ _ (by decide) htterm
    have hstar1 : '*' ∉ ofStr "##### " ++ t := notMemAppend _ _ (by decide) htstar
    have htick1 : Char.ofNat 96 ∉ ofStr "##### " ++ t := notMemAppend _ _ (by decide) httick
    have htr1 : jsTrim (ofStr "##### " ++ t) ≠ [] :=
      jsTrim_ne_nil _ '#' (List.mem_append_left _ (by decide)) (by decide)
    unfold simpleMarkdownToHtml
    rw [if_neg hne,
      replaceHeading_single _ _ _ _ hne hterm1, headingSeg_neg _ _ _ _ (by rfl),
      replaceHeading_single _ _ _ _ hne hterm1, headingSeg_neg _ _ _ _ (by rfl),
      replaceHeading_single _ _ _ _ hne hterm1, headingSeg_neg _ _ _ _ (by rfl),
      md_spans_paragraph _ hterm1 hstar1 htick1 htr1,
      nlToBr_noop _ (fun hm => absurd (hterm1 '\n' (jsTrim_mem _ _ hm)) (by decide))]
  · -- level 6
    have hne : (ofStr "###### " ++ t) ≠ [] := cons_append_ne_nil '#' (ofStr "##### ") t
    have hterm1 : ∀ c ∈ ofStr "###### " ++ t, isLineTerm c = false :=
      forall_mem_append _ _ (by decide) htterm
    have hstar1 : '*' ∉ ofStr "###### " ++ t := notMemAppend _ _ (by decide) htstar
    have htick1 : Char.ofNat 96 ∉ ofStr "###### " ++ t := notMemAppend _ _ (by decide) httick
    have htr1 : jsTrim (ofStr "###### " ++ t) ≠ [] :=
      jsTrim_ne_nil _ '#' (List.mem_append_left _ (by decide)) (by decide)
    unfold simpleMarkdownToHtml
    rw [if_neg hne,
      replaceHeading_single _ _ _ _ hne hterm1, headingSeg_neg _ _ _ _ (by rfl),
      replaceHeading_single _ _ _ _ hne hterm1, headingSeg_neg _ _ _ _ (by rfl),
      replaceHeading_single _ _ _ _ hne hterm1, headingSeg_neg _ _ _ _ (by rfl),
      md_spans_paragraph _ hterm1 hstar1 htick1 htr1,
      nlToBr_noop _ (fun hm => absurd (hterm1 '\n' (jsTrim_mem _ _ hm)) (by decide))]

/-- C7 counterexample: a level-4 heading line is classified as Markdown
but `simpleMarkdownToHtml` emits it as literal paragraph text, not a
level-4 heading element. -/
theorem c7_counterexample :
    looksLikeMarkdown (ofStr "#### Title") = true ∧
      simpleMarkdownToHtml (ofStr "#### Title") = ofStr "<p>#### Title</p>" := by
  constructor
  · decide
  · decide

/-- Witness for C7 at the title `"Title"`. -/
theorem c7_heading_levels_witness :
    (∀ c ∈ ofStr "Title", isLineTerm c = false ∧ ¬c = '*' ∧ isTick c = false) ∧
      simpleMarkdownToHtml (ofStr "# " ++ ofStr "Title") =
        wrapP (ofStr "<h1>" ++ ofStr "Title" ++ ofStr "</h1>") :=
  ⟨by decide, (c7_heading_levels (ofStr "Title") (by decide)).1⟩

/-- No-break space. -/
def nbspChar : Char := Char.ofNat 160

/-- Characters of an HTML tag name. -/
def tagNameChar (c : Char) : Bool := isAsciiLetter c || c.isDigit

/-- Characters of an HTML attribute name. -/
def attrNameChar (c : Char) : Bool :=
  !isWs c && !(c == '/') && !(c == '>') && !(c == '=')

/-- ASCII lowercasing of a string. -/
def lowerStr (s : Str) : Str := s.map lowerChar

/-- Modelled from the spec: the conservative tag allow-list of the
sanitizer (§4.4 — basic text formatting, lists, links, blockquotes, code
blocks); `DOMPurify` itself is a third-party library not present under
`src/`. -/
def allowedTags : List Str :=
  [ofStr "a", ofStr "b", ofStr "i", ofStr "em", ofStr "strong", ofStr "p", ofStr "br",
   ofStr "hr", ofStr "ul", ofStr "ol", ofStr "li", ofStr "blockquote", ofStr "code",
   ofStr "pre", ofStr "h1", ofStr "h2", ofStr "h3", ofStr "h4", ofStr "h5", ofStr "h6",
   ofStr "span", ofStr "div"]

/-- Modelled from the spec: elements removed together with their text
content (script is stripped entirely, not left as text). -/
def dropContentTags : List Str := [ofStr "script", ofStr "style"]

/-- Modelled from the spec: the conservative attribute allow-list; no
inline event handler (`on...`) is in it. -/
def allowedAttrs : List Str := [ofStr "href", ofStr "src", ofStr "title", ofStr "alt"]

/-- Sanitized token: a text run, an opening tag with filtered
attributes, or a closing tag. -/
inductive Tok where
  | text : Str → Tok
  | tagO : Str → List (Str × Str) → Tok
  | tagC : Str → Tok
deriving DecidableEq

/-- Raw token produced by the HTML tokenizer before filtering. -/
inductive RawTok where
  | rtext : Str → RawTok
  | rtag : Bool → Str → List (Str × Str) → RawTok
deriving DecidableEq

/-- Fueled entity decoding of parsed character data (the named entities
the pipeline can produce, plus the numeric apostrophe). -/
def decodeEntitiesF : Nat → Str → Str
  | 0, s => s
  | _ + 1, [] => []
  | fuel + 1, c :: rest =>
    if c = '&' then
      if (ofStr "amp;").isPrefixOf rest then '&' :: decodeEntitiesF fuel (rest.drop 4)
      else if (ofStr "lt;").isPrefixOf rest then '<' :: decodeEntitiesF fuel (rest.drop 3)
      else if (ofStr "gt;").isPrefixOf rest then '>' :: decodeEntitiesF fuel (rest.drop 3)
      else if (ofStr "nbsp;").isPrefixOf rest then nbspChar :: decodeEntitiesF fuel (rest.drop 5)
      else if (ofStr "quot;").isPrefixOf rest then '"' :: decodeEntitiesF fuel (rest.drop 5)
      else if (ofStr "#39;").isPrefixOf rest then '\'' :: decodeEntitiesF fuel (rest.drop 4)
      else '&' :: decodeEntitiesF fuel rest
    else c :: decodeEntitiesF fuel rest

/-- Entity decoding. -/
def decodeEntities (s : Str) : Str := decodeEntitiesF s.length s

/-- Remainder after the `=` of an attribute, when the name is followed
(after optional whitespace) by an `=`. -/
def attrEq (r1 : Str) : Option Str :=
  match r1.dropWhile isWs with
  | '=' :: r3 => some r3
  | _ => none

/-- Parse of one attribute value after the `=`: optional whitespace,
then a double-quoted, single-quoted or unquoted raw value; returns the
raw value and the remainder after it. -/
def parseAttrVal (r3 : Str) : Str × Str :=
  match r3.dropWhile isWs with
  | '"' :: r5 =>
    let v := r5.takeWhile (fun x => !(x == '"'))
    (v, (r5.drop v.length).drop 1)
  | '\'' :: r5 =>
    let v := r5.takeWhile (fun x => !(x == '\''))
    (v, (r5.drop v.length).drop 1)
  | r4 =>
    let v := r4.takeWhile (fun x => !isWs x && !(x == '>'))
    (v, r4.drop v.length)

/-- Fueled attribute parsing of a tag body up to the closing `>`:
whitespace and stray slashes are skipped, names are lowercased, values
are entity-decoded.  Returns the attribute list and the remainder after
the `>`. -/
def parseAttrsF : Nat → Str → (List (Str × Str)) × Str
  | 0, s => ([], s)
  | _ + 1, [] => ([], [])
  | fuel + 1, c :: rest =>
    if c = '>' then ([], rest)
    else if isWs c || c = '/' then parseAttrsF fuel rest
    else
      let nm := (c :: rest).takeWhile attrNameChar
      if nm.isEmpty then parseAttrsF fuel rest
      else
        match attrEq ((c :: rest).drop nm.length) with
        | some r3 =>
          let pv := parseAttrVal r3
          let p := parseAttrsF fuel pv.2
          ((lowerStr nm, decodeEntities pv.1) :: p.1, p.2)
        | none =>
          let p := parseAttrsF fuel ((c :: rest).drop nm.length)
          ((lowerStr nm, []) :: p.1, p.2)

/-- Fueled scan to the end of a raw-text element (`</name` followed by
anything up to `>`), dropping everything scanned; models removal of
script and style elements together with their content. -/
def skipRawF (name : Str) : Nat → Str → Str
  | 0, s => s
  | _ + 1, [] => []
  | fuel + 1, c :: rest =>
    if c = '<' then
      match rest with
      | '/' :: r2 =>
        if lowerStr (r2.take name.length) = name then
          ((r2.drop name.length).dropWhile (fun x => !(x == '>'))).drop 1
        else skipRawF name fuel rest
      | _ => skipRawF name fuel rest
    else skipRawF name fuel rest

/-- Fueled scan past an HTML comment (`-->`-terminated). -/
def skipCommentF : Nat → Str → Str
  | 0, s => s
  | _ + 1, [] => []
  | fuel + 1, c :: rest =>
    if (ofStr "-->").isPrefixOf (c :: rest) then (c :: rest).drop 3
    else skipCommentF fuel rest

/-- Modelled from the spec: the HTML tokenizer underlying the sanitizer
(§4.4); `DOMPurify` parses with the browser's HTML parser, which is not
part of `src/`.  Text runs are entity-decoded; `<` followed by a letter
opens a tag (names lowercased, attributes parsed); `</` plus a letter
closes one; comments and bogus markup are dropped; raw-text elements
(script, style) are dropped together with their content; a `<` followed
by anything else is literal text. -/
def tokenizeF : Nat → Str → List RawTok
  | 0, _ => []
  | _ + 1, [] => []
  | fuel + 1, c :: rest =>
    if c = '<' then
      match rest with
      | [] => [RawTok.rtext ['<']]
      | d :: r2 =>
        if d = '/' then
          if (match r2 with | e :: _ => isAsciiLetter e | [] => false) then
            RawTok.rtag true (lowerStr (r2.takeWhile tagNameChar)) [] ::
              tokenizeF fuel
                (((r2.drop (r2.takeWhile tagNameChar).length).dropWhile
                  (fun x => !(x == '>'))).drop 1)
          else
            tokenizeF fuel ((r2.dropWhile (fun x => !(x == '>'))).drop 1)
        else if isAsciiLetter d then
          if lowerStr ((d :: r2).takeWhile tagNameChar) ∈ dropContentTags then
            tokenizeF fuel
              (skipRawF (lowerStr ((d :: r2).takeWhile tagNameChar))
                (parseAttrsF ((d :: r2).drop ((d :: r2).takeWhile tagNameChar).length).length
                  ((d :: r2).drop ((d :: r2).takeWhile tagNameChar).length)).2.length
                (parseAttrsF ((d :: r2).drop ((d :: r2).takeWhile tagNameChar).length).length
                  ((d :: r2).drop ((d :: r2).takeWhile tagNameChar).length)).2)
          else
            RawTok.rtag false (lowerStr ((d :: r2).takeWhile tagNameChar))
                (parseAttrsF ((d :: r2).drop ((d :: r2).takeWhile tagNameChar).length).length
                  ((d :: r2).drop ((d :: r2).takeWhile tagNameChar).length)).1 ::
              tokenizeF fuel
                (parseAttrsF ((d :: r2).drop ((d :: r2).takeWhile tagNameChar).length).length
                  ((d :: r2).drop ((d :: r2).takeWhile tagNameChar).length)).2
        else if d = '!' || d = '?' then
          if (ofStr "!--").isPrefixOf rest then
            tokenizeF fuel (skipCommentF (rest.drop 3).length (rest.drop 3))
          else
            tokenizeF fuel ((r2.dropWhile (fun x => !(x == '>'))).drop 1)
        else
          RawTok.rtext ['<'] :: tokenizeF fuel rest
    else
      RawTok.rtext (decodeEntities ((c :: rest).takeWhile (fun x => !(x == '<')))) ::
        tokenizeF fuel ((c :: rest).drop ((c :: rest).takeWhile (fun x => !(x == '<'))).length)

/-- Attribute filter of the sanitizer: allow-listed name, never an
event handler, and no `javascript:` URL in a URI attribute (checked
after stripping control characters and lowercasing). -/
def attrOk (p : Str × Str) : Bool :=
  allowedAttrs.contains p.1 && !((ofStr "on").isPrefixOf p.1) &&
    (!(p.1 == ofStr "href" || p.1 == ofStr "src") ||
      !((ofStr "javascript:").isPrefixOf
        (lowerStr (p.2.filter (fun c => !(c.toNat ≤ 32 : Bool))))))

/-- Filtering pass of the sanitizer: allow-listed tags are kept with
filtered attributes, all other tags are dropped while their content is
kept. -/
def cleanToks : List RawTok → List Tok
  | [] => []
  | RawTok.rtext t :: rest => Tok.text t :: cleanToks rest
  | RawTok.rtag cl name attrs :: rest =>
    if allowedTags.contains name then
      (if cl then Tok.tagC name else Tok.tagO name (attrs.filter attrOk)) :: cleanToks rest
    else cleanToks rest

/-- Normalization of the token list: empty text runs are dropped and
adjacent text runs merged. -/
def normToks : List Tok → List Tok
  | [] => []
  | Tok.text a :: rest =>
    (match normToks rest with
     | Tok.text b :: l => Tok.text (a ++ b) :: l
     | l => if a.isEmpty then l else Tok.text a :: l)
  | t :: rest => t :: normToks rest

/-- Entity encoding of one attribute-value character (`&`, `"` and NBSP
become entities, everything else is verbatim). -/
def encAttrChar (c : Char) : Str :=
  if c = '&' then ofStr "&amp;"
  else if c = '"' then ofStr "&quot;"
  else if c.toNat = 160 then ofStr "&nbsp;"
  else [c]

/-- Entity encoding of an attribute value. -/
def encAttr : Str → Str
  | [] => []
  | c :: rest => encAttrChar c ++ encAttr rest

/-- Canonical serialization of an attribute list. -/
def renderAttrs : List (Str × Str) → Str
  | [] => []
  | (k, v) :: rest => ' ' :: (k ++ '=' :: '"' :: (encAttr v ++ '"' :: renderAttrs rest))

/-- Canonical serialization of one token: text is entity-encoded (the
same text serialization as `escapeHtml`), tags are emitted lowercase
with quoted attribute values. -/
def renderTok : Tok → Str
  | Tok.text t => escapeHtml t
  | Tok.tagO name attrs => '<' :: (name ++ renderAttrs attrs ++ ['>'])
  | Tok.tagC name => '<' :: '/' :: (name ++ ['>'])

/-- Serialization of a token list. -/
def renderToks (l : List Tok) : Str := joinAll (l.map renderTok)

/-- Sanitized token list of an input string. -/
def sanTokens (s : Str) : List Tok := normToks (cleanToks (tokenizeF s.length s))

/-- Modelled from the spec: `sanitizeHtml` wraps `DOMPurify.sanitize`
(§4.4), a third-party allow-list sanitizer not present under `src/`:
parse, drop script/style with their content, drop disallowed tags while
keeping their content, drop event-handler/non-allow-listed attributes
and `javascript:` URLs, and re-serialize canonically. -/
def sanitizeHtml (s : Str) : Str := renderToks (sanTokens s)

/-- `toHtmlFromContent` from `src/lib/utils.ts`: HTML passes through,
Markdown-looking content is converted by the Markdown converter, and
everything else by the plain-text converter. -/
def toHtmlFromContent (content : Str) : Str :=
  if content = [] then []
  else if isLikelyHtml content then content
  else if looksLikeMarkdown content then simpleMarkdownToHtml content
  else toHtmlFromPlainText content

/-- `renderForPreview` from `src/lib/utils.ts`: empty input renders
empty; otherwise classify-and-convert then always sanitize. -/
def renderForPreview (content : Str) : Str :=
  if content = [] then [] else sanitizeHtml (toHtmlFromContent content)

/-- Cleanliness of one sanitized token: text runs nonempty, tag names
on the allow-list, attributes passing the attribute filter. -/
def tokClean : Tok → Bool
  | Tok.text t => !t.isEmpty
  | Tok.tagO n a => allowedTags.contains n && a.all attrOk
  | Tok.tagC n => allowedTags.contains n

/-- Whether a token list does not start with a text run. -/
def headNotText : List Tok → Bool
  | Tok.text _ :: _ => false
  | _ => true

/-- Whether no two adjacent text runs occur. -/
def noAdjText : List Tok → Bool
  | [] => true
  | Tok.text _ :: rest => headNotText rest && noAdjText rest
  | _ :: rest => noAdjText rest

/-- Well-formedness of a sanitized token list. -/
def toksOk (l : List Tok) : Prop :=
  (∀ t ∈ l, tokClean t = true) ∧ noAdjText l = true

/-- Tag cleanliness of one token ignoring text contents. -/
def tagTokOk : Tok → Bool
  | Tok.text _ => true
  | Tok.tagO n a => allowedTags.contains n && a.all attrOk
  | Tok.tagC n => allowedTags.contains n

/-- Filtering produces only tag-clean tokens. -/
theorem cleanToks_tagOk (raws : List RawTok) : ∀ t ∈ cleanToks raws, tagTokOk t = true := by
  induction raws with
  | nil => intro t ht; cases ht
  | cons r rest ih =>
    cases r with
    | rtext s =>
      intro t ht
      rcases List.mem_cons.mp ht with rfl | h2
      · rfl
      · exact ih t h2
    | rtag cl name attrs =>
      show ∀ t ∈ (if allowedTags.contains name then
          (if cl then Tok.tagC name else Tok.tagO name (attrs.filter attrOk)) :: cleanToks rest
        else cleanToks rest), tagTokOk t = true
      by_cases hal : allowedTags.contains name = true
      · rw [if_pos hal]
        intro t ht
        rcases List.mem_cons.mp ht with rfl | h2
        · cases cl with
          | true =>
            show allowedTags.contains name = true
            exact hal
          | false =>
            show (allowedTags.contains name && (attrs.filter attrOk).all attrOk) = true
            rw [hal, List.all_eq_true.mpr (fun p hp => (List.mem_filter.mp hp).2)]
            rfl
        · exact ih t h2
      · rw [if_neg hal]
        exact ih

/-- Normalization yields clean tokens from tag-clean input. -/
theorem normToks_clean (l : List Tok) (h : ∀ t ∈ l, tagTokOk t = true) :
    ∀ t ∈ normToks l, tokClean t = true := by
  induction l with
  | nil => intro t ht; cases ht
  | cons t0 rest ih =>
    have ih2 := ih fun t ht => h t (List.mem_cons_of_mem _ ht)
    cases t0 with
    | text a =>
      have hunf : normToks (Tok.text a :: rest) =
          (match normToks rest with
           | Tok.text b :: l => Tok.text (a ++ b) :: l
           | l => if a.isEmpty then l else Tok.text a :: l) := rfl
      rw [hunf]
      cases hM : normToks rest with
      | nil =>
        simp only []
        by_cases ha : a.isEmpty = true
        · rw [if_pos ha]
          intro t ht; cases ht
        · rw [if_neg ha]
          intro t ht
          rcases List.mem_cons.mp ht with rfl | h2
          · show (!a.isEmpty) = true
            simp [ha]
          · cases h2
      | cons m l2 =>
        cases m with
        | text b =>
          simp only []
          intro t ht
          rcases List.mem_cons.mp ht with rfl | h2
          · have hb := ih2 (Tok.text b) (hM ▸ List.mem_cons_self _ _)
            have hb2 : b ≠ [] := by
              intro hcon
              rw [hcon] at hb
              cases hb
            show (!(a ++ b).isEmpty) = true
            have hne : a ++ b ≠ [] := fun hc => hb2 (List.append_eq_nil.mp hc).2
            simp [List.isEmpty_iff, hne]
          · exact ih2 t (hM ▸ List.mem_cons_of_mem _ h2)
        | tagO n att =>
          simp only []
          by_cases ha : a.isEmpty = true
          · rw [if_pos ha]
            intro t ht
            exact ih2 t (hM ▸ ht)
          · rw [if_neg ha]
            intro t ht
            rcases List.mem_cons.mp ht with rfl | h2
            · show (!a.isEmpty) = true
              simp [ha]
            · exact ih2 t (hM ▸ h2)
        | tagC n =>
          simp only []
          by_cases ha : a.isEmpty = true
          · rw [if_pos ha]
            intro t ht
            exact ih2 t (hM ▸ ht)
          · rw [if_neg ha]
            intro t ht
            rcases List.mem_cons.mp ht with rfl | h2
            · show (!a.isEmpty) = true
              simp [ha]
            · exact ih2 t (hM ▸ h2)
    | tagO n att =>
      intro t ht
      rcases List.mem_cons.mp ht with rfl | h2
      · exact h _ (List.mem_cons_self _ _)
      · exact ih2 t h2
    | tagC n =>
      intro t ht
      rcases List.mem_cons.mp ht with rfl | h2
      · exact h _ (List.mem_cons_self _ _)
      · exact ih2 t h2

/-- Normalization leaves no adjacent text runs. -/
theorem normToks_noAdj (l : List Tok) : noAdjText (normToks l) = true := by
  induction l with
  | nil => rfl
  | cons t0 rest ih =>
    cases t0 with
    | text a =>
      have hunf : normToks (Tok.text a :: rest) =
          (match normToks rest with
           | Tok.text b :: l => Tok.text (a ++ b) :: l
           | l => if a.isEmpty then l else Tok.text a :: l) := rfl
      rw [hunf]
      cases hM : normToks rest with
      | nil =>
        simp only []
        by_cases ha : a.isEmpty = true
        · rw [if_pos ha]; rfl
        · rw [if_neg ha]; rfl
      | cons m l2 =>
        rw [hM] at ih
        cases m with
        | text b =>
          simp only []
          exact ih
        | tagO n att =>
          simp only []
          by_cases ha : a.isEmpty = true
          · rw [if_pos ha]; exact ih
          · rw [if_neg ha]
            show (headNotText (Tok.tagO n att :: l2) && noAdjText (Tok.tagO n att :: l2)) = true
            rw [ih]
            rfl
        | tagC n =>
          simp only []
          by_cases ha : a.isEmpty = true
          · rw [if_pos ha]; exact ih
          · rw [if_neg ha]
            show (headNotText (Tok.tagC n :: l2) && noAdjText (Tok.tagC n :: l2)) = true
            rw [ih]
            rfl
    | tagO n att =>
      show noAdjText (Tok.tagO n att :: normToks rest) = true
      exact ih
    | tagC n =>
      show noAdjText (Tok.tagC n :: normToks rest) = true
      exact ih

/-- Sanitized token lists are well formed. -/
theorem sanTokens_ok (s : Str) : toksOk (sanTokens s) :=
  ⟨normToks_clean _ (cleanToks_tagOk _), normToks_noAdj _⟩

/-- Decoder step over an encoded ampersand. -/
theorem decode_step_amp (f : Nat) (X : Str) :
    decodeEntitiesF (f + 1) ('&' :: (ofStr "amp;" ++ X)) = '&' :: decodeEntitiesF f X := by
  simp only [decodeEntitiesF, reduceIte, isPrefixOf_append_self, if_pos]
  rw [show (4:Nat) = (ofStr "amp;").length from rfl, List.drop_left]

/-- Decoder step over an encoded less-than sign. -/
theorem decode_step_lt (f : Nat) (X : Str) :
    decodeEntitiesF (f + 1) ('&' :: (ofStr "lt;" ++ X)) = '<' :: decodeEntitiesF f X := by
  simp only [decodeEntitiesF, reduceIte, isPrefixOf_append_self, if_pos]
  have h1 : (ofStr "amp;").isPrefixOf (ofStr "lt;" ++ X) = false := by
    simp [ofStr, List.isPrefixOf]
  rw [h1]
  simp only [Bool.false_eq_true, if_false]
  rw [show (3:Nat) = (ofStr "lt;").length from rfl, List.drop_left]

/-- Decoder step over an encoded greater-than sign. -/
theorem decode_step_gt (f : Nat) (X : Str) :
    decodeEntitiesF (f + 1) ('&' :: (ofStr "gt;" ++ X)) = '>' :: decodeEntitiesF f X := by
  simp only [decodeEntitiesF, reduceIte, isPrefixOf_append_self, if_pos]
  have h1 : (ofStr "amp;").isPrefixOf (ofStr "gt;" ++ X) = false := by
    simp [ofStr, List.isPrefixOf]
  have h2 : (ofStr "lt;").isPrefixOf (ofStr "gt;" ++ X) = false := by
    simp [ofStr, List.isPrefixOf]
  rw [h1, h2]
  simp only [Bool.false_eq_true, if_false]
  rw [show (3:Nat) = (ofStr "gt;").length from rfl, List.drop_left]

/-- Decoder step over an encoded non-breaking space. -/
theorem decode_step_nbsp (f : Nat) (X : Str) :
    decodeEntitiesF (f + 1) ('&' :: (ofStr "nbsp;" ++ X)) = nbspChar :: decodeEntitiesF f X := by
  simp only [decodeEntitiesF, reduceIte, isPrefixOf_append_self, if_pos]
  have h1 : (ofStr "amp;").isPrefixOf (ofStr "nbsp;" ++ X) = false := by
    simp [ofStr, List.isPrefixOf]
  have h2 : (ofStr "lt;").isPrefixOf (ofStr "nbsp;" ++ X) = false := by
    simp [ofStr, List.isPrefixOf]
  have h3 : (ofStr "gt;").isPrefixOf (ofStr "nbsp;" ++ X) = false := by
    simp [ofStr, List.isPrefixOf]
  rw [h1, h2, h3]
  simp only [Bool.false_eq_true, if_false]
  rw [show (5:Nat) = (ofStr "nbsp;").length from rfl, List.drop_left]

/-- Decoder step over an encoded double quote. -/
theorem decode_step_quot (f : Nat) (X : Str) :
    decodeEntitiesF (f + 1) ('&' :: (ofStr "quot;" ++ X)) = '"' :: decodeEntitiesF f X := by
  simp only [decodeEntitiesF, reduceIte, isPrefixOf_append_self, if_pos]
  have h1 : (ofStr "amp;").isPrefixOf (ofStr "quot;" ++ X) = false := by
    simp [ofStr, List.isPrefixOf]
  have h2 : (ofStr "lt;").isPrefixOf (ofStr "quot;" ++ X) = false := by
    simp [ofStr, List.isPrefixOf]
  have h3 : (ofStr "gt;").isPrefixOf (ofStr "quot;" ++ X) = false := by
    simp [ofStr, List.isPrefixOf]
  have h4 : (ofStr "nbsp;").isPrefixOf (ofStr "quot;" ++ X) = false := by
    simp [ofStr, List.isPrefixOf]
  rw [h1, h2, h3, h4]
  simp only [Bool.false_eq_true, if_false]
  rw [show (5:Nat) = (ofStr "quot;").length from rfl, List.drop_left]

/-- Decoder step over a literal character. -/
theorem decode_step_other (f : Nat) (c : Char) (X : Str) (hc : ¬c = '&') :
    decodeEntitiesF (f + 1) (c :: X) = c :: decodeEntitiesF f X := by
  simp only [decodeEntitiesF, if_neg hc]

/-- Case analysis of the text-serialization character encoding. -/
theorem escChar_cases (c : Char) :
    escChar c = '&' :: ofStr "amp;" ∧ c = '&' ∨
    escChar c = '&' :: ofStr "lt;" ∧ c = '<' ∨
    escChar c = '&' :: ofStr "gt;" ∧ c = '>' ∨
    escChar c = '&' :: ofStr "nbsp;" ∧ c = nbspChar ∨
    escChar c = [c] ∧ ¬c = '&' := by
  rw [escChar]
  by_cases h1 : c = '&'
  · rw [if_pos h1]; exact Or.inl ⟨rfl, h1⟩
  rw [if_neg h1]
  by_cases h2 : c = '<'
  · rw [if_pos h2]; exact Or.inr (Or.inl ⟨rfl, h2⟩)
  rw [if_neg h2]
  by_cases h3 : c = '>'
  · rw [if_pos h3]; exact Or.inr (Or.inr (Or.inl ⟨rfl, h3⟩))
  rw [if_neg h3]
  by_cases h4 : c.toNat = 160
  · rw [if_pos h4]
    refine Or.inr (Or.inr (Or.inr (Or.inl ⟨rfl, ?_⟩)))
    have hv : c.toNat = nbspChar.toNat := by rw [h4]; rfl
    exact Char.eq_of_val_eq (UInt32.ext hv)
  · rw [if_neg h4]; exact Or.inr (Or.inr (Or.inr (Or.inr ⟨rfl, h1⟩)))

/-- Case analysis of the attribute-value character encoding. -/
theorem encAttrChar_cases (c : Char) :
    encAttrChar c = '&' :: ofStr "amp;" ∧ c = '&' ∨
    encAttrChar c = '&' :: ofStr "quot;" ∧ c = '"' ∨
    encAttrChar c = '&' :: ofStr "nbsp;" ∧ c = nbspChar ∨
    encAttrChar c = [c] ∧ ¬c = '&' ∧ ¬c = '"' := by
  rw [encAttrChar]
  by_cases h1 : c = '&'
  · rw [if_pos h1]; exact Or.inl ⟨rfl, h1⟩
  rw [if_neg h1]
  by_cases h2 : c = '"'
  · rw [if_pos h2]; exact Or.inr (Or.inl ⟨rfl, h2⟩)
  rw [if_neg h2]
  by_cases h4 : c.toNat = 160
  · rw [if_pos h4]
    refine Or.inr (Or.inr (Or.inl ⟨rfl, ?_⟩))
    have hv : c.toNat = nbspChar.toNat := by rw [h4]; rfl
    exact Char.eq_of_val_eq (UInt32.ext hv)
  · rw [if_neg h4]; exact Or.inr (Or.inr (Or.inr ⟨rfl, h1, h2⟩))

/-- Entity decoding inverts text serialization. -/
theorem decodeF_escape : ∀ (f : Nat) (t : Str), t.length ≤ f →
    decodeEntitiesF f (escapeHtml t) = t := by
  intro f
  induction f with
  | zero =>
    intro t ht
    have h0 : t = [] := List.length_eq_zero.mp (Nat.le_zero.mp ht)
    subst h0; rfl
  | succ f ih =>
    intro t ht
    cases t with
    | nil => rfl
    | cons c rest =>
      have hr : rest.length ≤ f := by simp only [List.length_cons] at ht; omega
      show decodeEntitiesF (f+1) (escChar c ++ escapeHtml rest) = c :: rest
      rcases escChar_cases c with ⟨he, rfl⟩ | ⟨he, rfl⟩ | ⟨he, rfl⟩ | ⟨he, rfl⟩ | ⟨he, hne⟩
      · rw [he, List.cons_append, decode_step_amp, ih rest hr]
      · rw [he, List.cons_append, decode_step_lt, ih rest hr]
      · rw [he, List.cons_append, decode_step_gt, ih rest hr]
      · rw [he, List.cons_append, decode_step_nbsp, ih rest hr]
      · rw [he, List.singleton_append, decode_step_other f c _ hne, ih rest hr]

/-- Entity decoding inverts attribute-value encoding. -/
theorem decodeF_encAttr : ∀ (f : Nat) (t : Str), t.length ≤ f →
    decodeEntitiesF f (encAttr t) = t := by
  intro f
  induction f with
  | zero =>
    intro t ht
    have h0 : t = [] := List.length_eq_zero.mp (Nat.le_zero.mp ht)
    subst h0; rfl
  | succ f ih =>
    intro t ht
    cases t with
    | nil => rfl
    | cons c rest =>
      have hr : rest.length ≤ f := by simp only [List.length_cons] at ht; omega
      show decodeEntitiesF (f+1) (encAttrChar c ++ encAttr rest) = c :: rest
      rcases encAttrChar_cases c with ⟨he, rfl⟩ | ⟨he, rfl⟩ | ⟨he, rfl⟩ | ⟨he, hne⟩
      · rw [he, List.cons_append, decode_step_amp, ih rest hr]
      · rw [he, List.cons_append, decode_step_quot, ih rest hr]
      · rw [he, List.cons_append, decode_step_nbsp, ih rest hr]
      · rw [he, List.singleton_append, decode_step_other f c _ hne.1, ih rest hr]

/-- Encoded attribute values contain no raw double quote. -/
theorem encAttr_no_quote (v : Str) : ∀ c ∈ encAttr v, (!(c == '"')) = true := by
  induction v with
  | nil => intro c hc; cases hc
  | cons a rest ih =>
    intro c hc
    rcases List.mem_append.mp hc with h1 | h2
    · rcases encAttrChar_cases a with ⟨he, _⟩ | ⟨he, _⟩ | ⟨he, _⟩ | ⟨he, hne⟩
      · have hall : ∀ x ∈ ('&' :: ofStr "amp;"), (!(x == '"')) = true := by decide
        exact hall c (he ▸ h1)
      · have hall : ∀ x ∈ ('&' :: ofStr "quot;"), (!(x == '"')) = true := by decide
        exact hall c (he ▸ h1)
      · have hall : ∀ x ∈ ('&' :: ofStr "nbsp;"), (!(x == '"')) = true := by decide
        exact hall c (he ▸ h1)
      · rw [he] at h1
        rw [List.mem_singleton.mp h1]
        simp [hne.2]
    · exact ih c h2

/-- Character text-encodings are nonempty. -/
theorem escChar_len (c : Char) : 1 ≤ (escChar c).length := by
  rcases escChar_cases c with ⟨he, _⟩ | ⟨he, _⟩ | ⟨he, _⟩ | ⟨he, _⟩ | ⟨he, _⟩ <;>
    rw [he] <;> simp

/-- Text serialization does not shorten a string. -/
theorem escapeHtml_len (t : Str) : t.length ≤ (escapeHtml t).length := by
  induction t with
  | nil => simp [escapeHtml]
  | cons c rest ih =>
    show (c :: rest).length ≤ (escChar c ++ escapeHtml rest).length
    rw [List.length_cons, List.length_append]
    have := escChar_len c
    omega

/-- Character attribute-encodings are nonempty. -/
theorem encAttrChar_len (c : Char) : 1 ≤ (encAttrChar c).length := by
  rcases encAttrChar_cases c with ⟨he, _⟩ | ⟨he, _⟩ | ⟨he, _⟩ | ⟨he, _⟩ <;>
    rw [he] <;> simp

/-- Attribute-value encoding does not shorten a string. -/
theorem encAttr_len (t : Str) : t.length ≤ (encAttr t).length := by
  induction t with
  | nil => simp [encAttr]
  | cons c rest ih =>
    show (c :: rest).length ≤ (encAttrChar c ++ encAttr rest).length
    rw [List.length_cons, List.length_append]
    have := encAttrChar_len c
    omega

/-- Conversion from list containment to membership. -/
theorem mem_of_contains {l : List Str} {x : Str} (h : l.contains x = true) : x ∈ l := by
  simpa using h

/-- Conversion from membership to list containment. -/
theorem contains_of_mem {l : List Str} {x : Str} (h : x ∈ l) : l.contains x = true := by
  simpa using h

/-- Facts about the tag allow-list, checked by evaluation: names are
nonempty lowercase tag-name words starting with a letter, and none is a
raw-text (content-dropped) element or the script element. -/
theorem allowedTags_facts : ∀ n ∈ allowedTags, n ≠ [] ∧
    isAsciiLetter n.headI = true ∧ (∀ c ∈ n, tagNameChar c = true) ∧
    lowerStr n = n ∧ ¬n ∈ dropContentTags ∧ ¬n = ofStr "script" := by decide

/-- Facts about the attribute allow-list, checked by evaluation: names
are nonempty lowercase attribute-name words. -/
theorem allowedAttrs_facts : ∀ k ∈ allowedAttrs, k ≠ [] ∧
    (∀ c ∈ k, attrNameChar c = true) ∧ lowerStr k = k := by decide

/-- ASCII letters are not the slash character. -/
theorem isAsciiLetter_ne_slash (c : Char) (h : isAsciiLetter c = true) : ¬c = '/' := by
  intro hc
  subst hc
  exact absurd h (by decide)

/-- Attribute parser step over a leading space. -/
theorem parseAttrsF_sp (f : Nat) (X : Str) :
    parseAttrsF (f + 1) (' ' :: X) = parseAttrsF f X := rfl

/-- Attribute parser stop at the closing bracket. -/
theorem parseAttrsF_gt (f : Nat) (X : Str) :
    parseAttrsF (f + 1) ('>' :: X) = ([], X) := rfl

/-- Equals-sign detection right after an attribute name. -/
theorem attrEq_eq (X : Str) : attrEq ('=' :: X) = some X := rfl

/-- Value parse of a double-quoted encoded value. -/
theorem parseAttrVal_dq (v W : Str) (hv : ∀ c ∈ encAttr v, (!(c == '"')) = true) :
    parseAttrVal ('"' :: (encAttr v ++ '"' :: W)) = (encAttr v, W) := by
  show (match ('"' :: (encAttr v ++ '"' :: W)).dropWhile isWs with
    | '"' :: r5 =>
      let v := r5.takeWhile (fun x => !(x == '"'))
      (v, (r5.drop v.length).drop 1)
    | '\'' :: r5 =>
      let v := r5.takeWhile (fun x => !(x == '\''))
      (v, (r5.drop v.length).drop 1)
    | r4 =>
      let v := r4.takeWhile (fun x => !isWs x && !(x == '>'))
      (v, r4.drop v.length)) = (encAttr v, W)
  rw [show ('"' :: (encAttr v ++ '"' :: W)).dropWhile isWs = '"' :: (encAttr v ++ '"' :: W) from rfl]
  simp only []
  rw [takeWhile_app_all _ _ _ hv (by decide)]
  rw [show (encAttr v ++ '"' :: W).drop (encAttr v).length = '"' :: W from List.drop_left _ _]
  rfl

/-- Attribute parser step over one serialized attribute. -/
theorem parseAttrsF_kv (f : Nat) (kc : Char) (kt : Str) (v W : Str)
    (hkc : ∀ c ∈ (kc :: kt), attrNameChar c = true) :
    parseAttrsF (f + 1) ((kc :: kt) ++ '=' :: '"' :: (encAttr v ++ '"' :: W)) =
      ((lowerStr (kc :: kt), v) :: (parseAttrsF f W).1, (parseAttrsF f W).2) := by
  have hk0 := hkc kc (List.mem_cons_self _ _)
  simp only [attrNameChar, Bool.and_eq_true] at hk0
  have h1 : ¬kc = '>' := by simpa using hk0.1.2
  have h2 : ¬((isWs kc || kc = '/') = true) := by
    simp only [Bool.or_eq_true, decide_eq_true_eq]
    rintro (hw | hs)
    · simp [hw] at hk0
    · simp [hs] at hk0
  have hnm : List.takeWhile attrNameChar ((kc :: kt) ++ '=' :: '"' :: (encAttr v ++ '"' :: W)) =
      kc :: kt := takeWhile_app_all _ _ _ hkc (by decide)
  show (if kc = '>' then (([] : List (Str × Str)), kt ++ '=' :: '"' :: (encAttr v ++ '"' :: W))
    else if isWs kc || kc = '/' then parseAttrsF f (kt ++ '=' :: '"' :: (encAttr v ++ '"' :: W))
    else
      let nm := (kc :: (kt ++ '=' :: '"' :: (encAttr v ++ '"' :: W))).takeWhile attrNameChar
      if nm.isEmpty then parseAttrsF f (kt ++ '=' :: '"' :: (encAttr v ++ '"' :: W))
      else
        match attrEq ((kc :: (kt ++ '=' :: '"' :: (encAttr v ++ '"' :: W))).drop nm.length) with
        | some r3 =>
          let pv := parseAttrVal r3
          let p := parseAttrsF f pv.2
          ((lowerStr nm, decodeEntities pv.1) :: p.1, p.2)
        | none =>
          let p := parseAttrsF f
            ((kc :: (kt ++ '=' :: '"' :: (encAttr v ++ '"' :: W))).drop nm.length)
          ((lowerStr nm, []) :: p.1, p.2)) =
      ((lowerStr (kc :: kt), v) :: (parseAttrsF f W).1, (parseAttrsF f W).2)
  rw [if_neg h1, if_neg h2]
  rw [show (kc :: (kt ++ '=' :: '"' :: (encAttr v ++ '"' :: W))) =
    ((kc :: kt) ++ '=' :: '"' :: (encAttr v ++ '"' :: W)) from rfl, hnm]
  simp only [List.isEmpty_cons, Bool.false_eq_true, if_false]
  rw [List.drop_left, attrEq_eq]
  simp only []
  rw [parseAttrVal_dq v W (encAttr_no_quote v)]
  simp only []
  have hd : decodeEntities (encAttr v) = v := decodeF_encAttr _ v (encAttr_len v)
  rw [hd]

/-- Shape of a serialized attribute list before the closing bracket. -/
theorem renderAttrs_cons_gt (k v : Str) (tl : List (Str × Str)) (r : Str) :
    renderAttrs ((k, v) :: tl) ++ '>' :: r =
      ' ' :: (k ++ '=' :: '"' :: (encAttr v ++ '"' :: (renderAttrs tl ++ '>' :: r))) := by
  show (' ' :: (k ++ '=' :: '"' :: (encAttr v ++ '"' :: renderAttrs tl))) ++ '>' :: r = _
  simp [List.cons_append, List.append_assoc]

/-- Attribute parsing inverts attribute serialization. -/
theorem parseAttrs_round (attrs : List (Str × Str)) (r : Str) (g : Nat)
    (h : ∀ p ∈ attrs, p.1 ≠ [] ∧ (∀ c ∈ p.1, attrNameChar c = true) ∧ lowerStr p.1 = p.1) :
    parseAttrsF (2 * attrs.length + 1 + g) (renderAttrs attrs ++ '>' :: r) = (attrs, r) := by
  induction attrs generalizing r with
  | nil =>
    rw [show 2 * ([] : List (Str × Str)).length + 1 + g = g + 1 by simp [List.length_nil]; omega]
    exact parseAttrsF_gt g r
  | cons p tl ih =>
    obtain ⟨k, v⟩ := p
    obtain ⟨hk, hkc, hlo⟩ := h (k, v) (List.mem_cons_self _ _)
    obtain ⟨kc, kt, rfl⟩ : ∃ c u, k = c :: u := by
      cases k with
      | nil => exact absurd rfl hk
      | cons c u => exact ⟨c, u, rfl⟩
    rw [renderAttrs_cons_gt,
      show 2 * (((kc :: kt, v) :: tl).length) + 1 + g = (2 * tl.length + 1 + g) + 1 + 1 by
        simp [List.length_cons]; omega,
      parseAttrsF_sp, parseAttrsF_kv _ kc kt v _ hkc, hlo,
      ih r (fun p hp => h p (List.mem_cons_of_mem _ hp))]

/-- Tokenizer step over a text run. -/
theorem tokenizeF_text (f : Nat) (c : Char) (X : Str) (hc : ¬c = '<') :
    tokenizeF (f + 1) (c :: X) =
      RawTok.rtext (decodeEntities ((c :: X).takeWhile (fun x => !(x == '<')))) ::
        tokenizeF f ((c :: X).drop ((c :: X).takeWhile (fun x => !(x == '<'))).length) := by
  rw [tokenizeF.eq_def]
  simp only []
  rw [if_neg hc]

/-- A serialized attribute list before a closing bracket starts with a non-name character. -/
theorem renderAttrs_gt_head (A : List (Str × Str)) (R : Str) :
    ∃ b Y, renderAttrs A ++ '>' :: R = b :: Y ∧ tagNameChar b = false := by
  cases A with
  | nil => exact ⟨'>', R, rfl, by decide⟩
  | cons p tl =>
    obtain ⟨k, v⟩ := p
    exact ⟨' ', (k ++ '=' :: '"' :: (encAttr v ++ '"' :: renderAttrs tl)) ++ '>' :: R,
      rfl, by decide⟩

/-- Tokenizer step over a serialized closing tag. -/
theorem tokenizeF_close (f : Nat) (nc : Char) (nt : Str) (R : Str)
    (hl : isAsciiLetter nc = true) (hn : ∀ c ∈ (nc :: nt), tagNameChar c = true) :
    tokenizeF (f + 1) ('<' :: '/' :: nc :: (nt ++ '>' :: R)) =
      RawTok.rtag true (lowerStr (nc :: nt)) [] :: tokenizeF f R := by
  have htw : List.takeWhile tagNameChar (nc :: (nt ++ '>' :: R)) = nc :: nt := by
    rw [show nc :: (nt ++ '>' :: R) = (nc :: nt) ++ '>' :: R from rfl]
    exact takeWhile_app_all _ _ _ hn (by decide)
  rw [tokenizeF.eq_def]
  simp only [reduceIte]
  rw [if_pos hl]
  rw [htw]
  rw [show List.drop (nc :: nt).length (nc :: (nt ++ '>' :: R)) = '>' :: R from by
    rw [show nc :: (nt ++ '>' :: R) = (nc :: nt) ++ '>' :: R from rfl]
    exact List.drop_left _ _]
  rw [show List.dropWhile (fun x => !(x == '>')) ('>' :: R) = '>' :: R from by
    simp [List.dropWhile_cons]]
  rfl

/-- A serialized attribute list is at least twice as long as the attribute count. -/
theorem renderAttrs_len (A : List (Str × Str)) : 2 * A.length ≤ (renderAttrs A).length := by
  induction A with
  | nil => simp [renderAttrs]
  | cons p tl ih =>
    obtain ⟨k, v⟩ := p
    show 2 * (tl.length + 1) ≤
      (' ' :: (k ++ '=' :: '"' :: (encAttr v ++ '"' :: renderAttrs tl))).length
    simp only [List.length_cons, List.length_append]
    omega

/-- Tokenizer step over a serialized opening tag. -/
theorem tokenizeF_open (f : Nat) (nc : Char) (nt : Str) (A : List (Str × Str)) (R : Str)
    (hl : isAsciiLetter nc = true) (hn : ∀ c ∈ (nc :: nt), tagNameChar c = true)
    (hlo : lowerStr (nc :: nt) = nc :: nt)
    (hnd : ¬(nc :: nt) ∈ dropContentTags)
    (hA : ∀ p ∈ A, p.1 ≠ [] ∧ (∀ c ∈ p.1, attrNameChar c = true) ∧ lowerStr p.1 = p.1) :
    tokenizeF (f + 1) ('<' :: nc :: (nt ++ (renderAttrs A ++ '>' :: R))) =
      RawTok.rtag false (nc :: nt) A :: tokenizeF f R := by
  obtain ⟨b, Y, hbY, hb⟩ := renderAttrs_gt_head A R
  have htw : List.takeWhile tagNameChar (nc :: (nt ++ (renderAttrs A ++ '>' :: R))) =
      nc :: nt := by
    rw [show nc :: (nt ++ (renderAttrs A ++ '>' :: R)) =
      (nc :: nt) ++ (renderAttrs A ++ '>' :: R) from rfl, hbY]
    exact takeWhile_app_all _ _ _ hn hb
  have hdrop : List.drop (nc :: nt).length (nc :: (nt ++ (renderAttrs A ++ '>' :: R))) =
      renderAttrs A ++ '>' :: R := by
    rw [show nc :: (nt ++ (renderAttrs A ++ '>' :: R)) =
      (nc :: nt) ++ (renderAttrs A ++ '>' :: R) from rfl]
    exact List.drop_left _ _
  have hslash : ¬nc = '/' := isAsciiLetter_ne_slash nc hl
  obtain ⟨g, hg⟩ : ∃ g, (renderAttrs A ++ '>' :: R).length = 2 * A.length + 1 + g := by
    have h1 := renderAttrs_len A
    have h2 : (renderAttrs A ++ '>' :: R).length =
        (renderAttrs A).length + 1 + R.length := by
      simp [List.length_append]
      omega
    exact ⟨(renderAttrs A).length - 2 * A.length + R.length, by omega⟩
  have hpar : parseAttrsF (renderAttrs A ++ '>' :: R).length (renderAttrs A ++ '>' :: R) =
      (A, R) := by
    rw [hg]
    exact parseAttrs_round A R g hA
  rw [tokenizeF.eq_def]
  simp only [reduceIte]
  rw [if_neg hslash, if_pos hl, htw, hlo]
  rw [if_neg hnd]
  rw [hdrop, hpar]

/-- Raw-token image of a token list, as the tokenizer reproduces it. -/
def rawOf : List Tok → List RawTok
  | [] => []
  | Tok.text t :: rest => RawTok.rtext t :: rawOf rest
  | Tok.tagO n a :: rest => RawTok.rtag false n a :: rawOf rest
  | Tok.tagC n :: rest => RawTok.rtag true n [] :: rawOf rest

/-- Serialization of a token list, one token at a time. -/
theorem renderToks_cons (t : Tok) (rest : List Tok) :
    renderToks (t :: rest) = renderTok t ++ renderToks rest := rfl

/-- Serialized token lists with a non-text head are empty or start with an angle bracket. -/
theorem renderToks_head (rest : List Tok) (h : headNotText rest = true) :
    renderToks rest = [] ∨ ∃ Y, renderToks rest = '<' :: Y := by
  cases rest with
  | nil => exact Or.inl rfl
  | cons m l =>
    cases m with
    | text a => cases h
    | tagO n att =>
      exact Or.inr ⟨(n ++ renderAttrs att ++ ['>']) ++ renderToks l, rfl⟩
    | tagC n =>
      exact Or.inr ⟨'/' :: (n ++ ['>']) ++ renderToks l, rfl⟩

/-- Name facts for attribute lists passing the attribute filter. -/
theorem attr_facts_of_all (A : List (Str × Str)) (h : A.all attrOk = true) :
    ∀ p ∈ A, p.1 ≠ [] ∧ (∀ c ∈ p.1, attrNameChar c = true) ∧ lowerStr p.1 = p.1 := by
  intro p hp
  have hp2 := List.all_eq_true.mp h p hp
  simp only [attrOk, Bool.and_eq_true] at hp2
  have hmem : p.1 ∈ allowedAttrs := mem_of_contains hp2.1.1
  obtain ⟨h1, h2, h3⟩ := allowedAttrs_facts p.1 hmem
  exact ⟨h1, h2, h3⟩

/-- Tokenizing a serialized well-formed token list reproduces the tokens. -/
theorem retok (T : List Tok) : (∀ t ∈ T, tokClean t = true) → noAdjText T = true →
    ∀ f, (renderToks T).length ≤ f → tokenizeF f (renderToks T) = rawOf T := by
  induction T with
  | nil =>
    intro _ _ f _
    show tokenizeF f [] = []
    cases f <;> rfl
  | cons t0 rest ih =>
    intro hcl hadj f hf
    have hclr : ∀ t ∈ rest, tokClean t = true :=
      fun t ht => hcl t (List.mem_cons_of_mem _ ht)
    cases t0 with
    | text a =>
      have ha : (!a.isEmpty) = true := hcl (Tok.text a) (List.mem_cons_self _ _)
      have hane : a ≠ [] := by
        intro hc; rw [hc] at ha; cases ha
      simp only [noAdjText, Bool.and_eq_true] at hadj
      have hesc_ne : escapeHtml a ≠ [] := by
        obtain ⟨c, u, rfl⟩ : ∃ c u, a = c :: u := by
          cases a with
          | nil => exact absurd rfl hane
          | cons c u => exact ⟨c, u, rfl⟩
        show escChar c ++ escapeHtml u ≠ []
        intro hc
        have h1 : escChar c = [] := (List.append_eq_nil.mp hc).1
        have h2 := escChar_len c
        rw [h1] at h2
        exact absurd h2 (by decide)
      obtain ⟨c, u, hcu⟩ : ∃ c u, escapeHtml a = c :: u := by
        cases hE : escapeHtml a with
        | nil => exact absurd hE hesc_ne
        | cons c u => exact ⟨c, u, rfl⟩
      have hnoang := escapeHtml_no_angle a
      have hmemng : ∀ x ∈ escapeHtml a, (!(x == '<')) = true := by
        intro x hx
        have := List.all_eq_true.mp hnoang x hx
        simp only [Bool.and_eq_true] at this
        exact this.1
      have htw : List.takeWhile (fun x => !(x == '<'))
          (escapeHtml a ++ renderToks rest) = escapeHtml a := by
        rcases renderToks_head rest hadj.1 with hr | ⟨Y, hY⟩
        · rw [hr, List.append_nil]
          exact takeWhile_all _ hmemng
        · rw [hY]
          exact takeWhile_app_all _ _ _ hmemng (by decide)
      have hlen : a.length ≤ (escapeHtml a).length := escapeHtml_len a
      have hdec : decodeEntities (escapeHtml a) = a :=
        decodeF_escape _ a hlen
      have hcne : ¬c = '<' := by
        have := hmemng c (hcu ▸ List.mem_cons_self _ _)
        simpa using this
      have hlen2 : (escapeHtml a ++ renderToks rest).length =
          (escapeHtml a).length + (renderToks rest).length := by
        simp [List.length_append]
      obtain ⟨f2, rfl⟩ : ∃ f2, f = f2 + 1 := by
        cases f with
        | zero =>
          exfalso
          rw [renderToks_cons] at hf
          show False
          have h3 : (escapeHtml a).length ≥ 1 := by
            cases hE : escapeHtml a with
            | nil => exact absurd hE hesc_ne
            | cons x y => simp
          rw [show renderTok (Tok.text a) = escapeHtml a from rfl] at hf
          rw [hlen2] at hf
          omega
        | succ f2 => exact ⟨f2, rfl⟩
      rw [renderToks_cons, show renderTok (Tok.text a) = escapeHtml a from rfl]
      rw [hcu, List.cons_append]
      rw [tokenizeF_text f2 c (u ++ renderToks rest) hcne]
      rw [← List.cons_append, ← hcu, htw, hdec]
      rw [show (escapeHtml a ++ renderToks rest).drop (escapeHtml a).length =
        renderToks rest from List.drop_left _ _]
      have h3 : (escapeHtml a).length ≥ 1 := by
        cases hE : escapeHtml a with
        | nil => exact absurd hE hesc_ne
        | cons x y => simp
      have hfr : (renderToks rest).length ≤ f2 := by
        rw [renderToks_cons, show renderTok (Tok.text a) = escapeHtml a from rfl,
          hlen2] at hf
        omega
      rw [ih hclr hadj.2 f2 hfr]
      rfl
    | tagO n A =>
      have hcl0 := hcl (Tok.tagO n A) (List.mem_cons_self _ _)
      simp only [tokClean, Bool.and_eq_true] at hcl0
      have hmem : n ∈ allowedTags := mem_of_contains hcl0.1
      obtain ⟨hne, hhead, htnc, hlo, hnd, _⟩ := allowedTags_facts n hmem
      obtain ⟨nc, nt, rfl⟩ : ∃ c u, n = c :: u := by
        cases n with
        | nil => exact absurd rfl hne
        | cons c u => exact ⟨c, u, rfl⟩
      have hl : isAsciiLetter nc = true := by simpa using hhead
      have hadjr : noAdjText rest = true := hadj
      have hA := attr_facts_of_all A hcl0.2
      have hshape : renderToks (Tok.tagO (nc :: nt) A :: rest) =
          '<' :: nc :: (nt ++ (renderAttrs A ++ '>' :: renderToks rest)) := by
        rw [renderToks_cons]
        show ('<' :: ((nc :: nt) ++ renderAttrs A ++ ['>'])) ++ renderToks rest = _
        simp [List.cons_append, List.append_assoc]
      obtain ⟨f2, rfl⟩ : ∃ f2, f = f2 + 1 := by
        cases f with
        | zero =>
          exfalso
          rw [hshape] at hf
          simp at hf
        | succ f2 => exact ⟨f2, rfl⟩
      rw [hshape]
      rw [tokenizeF_open f2 nc nt A _ hl htnc hlo hnd hA]
      have hfr : (renderToks rest).length ≤ f2 := by
        rw [hshape] at hf
        simp only [List.length_cons, List.length_append] at hf
        omega
      rw [ih hclr hadjr f2 hfr]
      rfl
    | tagC n =>
      have hcl0 := hcl (Tok.tagC n) (List.mem_cons_self _ _)
      have hmem : n ∈ allowedTags := mem_of_contains hcl0
      obtain ⟨hne, hhead, htnc, hlo, hnd, _⟩ := allowedTags_facts n hmem
      obtain ⟨nc, nt, rfl⟩ : ∃ c u, n = c :: u := by
        cases n with
        | nil => exact absurd rfl hne
        | cons c u => exact ⟨c, u, rfl⟩
      have hl : isAsciiLetter nc = true := by simpa using hhead
      have hadjr : noAdjText rest = true := hadj
      have hshape : renderToks (Tok.tagC (nc :: nt) :: rest) =
          '<' :: '/' :: nc :: (nt ++ '>' :: renderToks rest) := by
        rw [renderToks_cons]
        show ('<' :: '/' :: ((nc :: nt) ++ ['>'])) ++ renderToks rest = _
        simp [List.cons_append, List.append_assoc]
      obtain ⟨f2, rfl⟩ : ∃ f2, f = f2 + 1 := by
        cases f with
        | zero =>
          exfalso
          rw [hshape] at hf
          simp at hf
        | succ f2 => exact ⟨f2, rfl⟩
      rw [hshape]
      rw [tokenizeF_close f2 nc nt _ hl htnc]
      have hfr : (renderToks rest).length ≤ f2 := by
        rw [hshape] at hf
        simp only [List.length_cons, List.length_append] at hf
        omega
      rw [ih hclr hadjr f2 hfr, hlo]
      rfl

/-- Filtering keeps every token of a clean token list. -/
theorem clean_rawOf (T : List Tok) (h : ∀ t ∈ T, tokClean t = true) :
    cleanToks (rawOf T) = T := by
  induction T with
  | nil => rfl
  | cons t rest ih =>
    have ihr := ih fun t ht => h t (List.mem_cons_of_mem _ ht)
    cases t with
    | text a =>
      show Tok.text a :: cleanToks (rawOf rest) = _
      rw [ihr]
    | tagO n A =>
      have h0 := h (Tok.tagO n A) (List.mem_cons_self _ _)
      simp only [tokClean, Bool.and_eq_true] at h0
      show (if allowedTags.contains n = true then
          (if false = true then Tok.tagC n else Tok.tagO n (A.filter attrOk)) ::
            cleanToks (rawOf rest)
        else cleanToks (rawOf rest)) = _
      rw [if_pos h0.1, if_neg (by decide), List.filter_eq_self.mpr
        (fun p hp => List.all_eq_true.mp h0.2 p hp), ihr]
    | tagC n =>
      have h0 : allowedTags.contains n = true := h (Tok.tagC n) (List.mem_cons_self _ _)
      show (if allowedTags.contains n = true then
          (if true = true then Tok.tagC n else Tok.tagO n (([] : List (Str × Str)).filter attrOk)) ::
            cleanToks (rawOf rest)
        else cleanToks (rawOf rest)) = _
      rw [if_pos h0, if_pos rfl, ihr]

/-- Normalization fixes well-formed token lists. -/
theorem normToks_id (T : List Tok) (h1 : ∀ t ∈ T, tokClean t = true)
    (h2 : noAdjText T = true) : normToks T = T := by
  induction T with
  | nil => rfl
  | cons t rest ih =>
    have h1r : ∀ t ∈ rest, tokClean t = true :=
      fun t ht => h1 t (List.mem_cons_of_mem _ ht)
    cases t with
    | text a =>
      simp only [noAdjText, Bool.and_eq_true] at h2
      have ihr := ih h1r h2.2
      have ha : (!a.isEmpty) = true := h1 (Tok.text a) (List.mem_cons_self _ _)
      have hae : ¬a.isEmpty = true := by
        intro hc; rw [hc] at ha; cases ha
      have hunf : normToks (Tok.text a :: rest) =
          (match normToks rest with
           | Tok.text b :: l => Tok.text (a ++ b) :: l
           | l => if a.isEmpty then l else Tok.text a :: l) := rfl
      rw [hunf, ihr]
      cases rest with
      | nil =>
        simp only []
        rw [if_neg hae]
      | cons m l =>
        cases m with
        | text b => cases h2.1
        | tagO n att =>
          simp only []
          rw [if_neg hae]
        | tagC n =>
          simp only []
          rw [if_neg hae]
    | tagO n A =>
      have ihr := ih h1r h2
      show Tok.tagO n A :: normToks rest = _
      rw [ihr]
    | tagC n =>
      have ihr := ih h1r h2
      show Tok.tagC n :: normToks rest = _
      rw [ihr]

/-- The sanitizer is idempotent. -/
theorem sanitize_idem (s : Str) : sanitizeHtml (sanitizeHtml s) = sanitizeHtml s := by
  have hok := sanTokens_ok s
  show renderToks (normToks (cleanToks (tokenizeF
      (renderToks (sanTokens s)).length (renderToks (sanTokens s))))) =
    renderToks (sanTokens s)
  rw [retok _ hok.1 hok.2 _ le_rfl, clean_rawOf _ hok.1, normToks_id _ hok.1 hok.2]

/-- Substring scanner: whether `u` occurs contiguously in the string. -/
def hasSub (u : Str) : Str → Bool
  | [] => u.isEmpty
  | c :: rest => u.isPrefixOf (c :: rest) || hasSub u rest

/-- Safety of one raw token: a text run, or an allow-listed non-script
tag whose attributes are all allow-listed and none an event handler. -/
def rawTokOk : RawTok → Bool
  | RawTok.rtext _ => true
  | RawTok.rtag _ name attrs =>
    allowedTags.contains name && !(name == ofStr "script") &&
      attrs.all (fun p => allowedAttrs.contains p.1 && !((ofStr "on").isPrefixOf p.1))

/-- Raw-token images of clean tokens are safe. -/
theorem rawOf_ok (T : List Tok) (h : ∀ t ∈ T, tokClean t = true) :
    ∀ rt ∈ rawOf T, rawTokOk rt = true := by
  induction T with
  | nil => intro rt h2; cases h2
  | cons t rest ih =>
    have ihr := ih fun t ht => h t (List.mem_cons_of_mem _ ht)
    cases t with
    | text a =>
      intro rt hrt
      rcases List.mem_cons.mp hrt with rfl | h2
      · rfl
      · exact ihr rt h2
    | tagO n A =>
      intro rt hrt
      rcases List.mem_cons.mp hrt with rfl | h2
      · have h0 := h (Tok.tagO n A) (List.mem_cons_self _ _)
        simp only [tokClean, Bool.and_eq_true] at h0
        obtain ⟨_, _, _, _, _, hscript⟩ := allowedTags_facts n (mem_of_contains h0.1)
        show (allowedTags.contains n && !(n == ofStr "script") &&
          A.all fun p => allowedAttrs.contains p.1 && !((ofStr "on").isPrefixOf p.1)) = true
        have hall : (A.all fun p =>
            allowedAttrs.contains p.1 && !((ofStr "on").isPrefixOf p.1)) = true := by
          rw [List.all_eq_true]
          intro p hp
          have hp2 := List.all_eq_true.mp h0.2 p hp
          simp only [attrOk, Bool.and_eq_true] at hp2
          rw [hp2.1.1, hp2.1.2]
          rfl
        rw [h0.1, hall, show (!(n == ofStr "script")) = true from by simp [hscript]]
        rfl
      · exact ihr rt h2
    | tagC n =>
      intro rt hrt
      rcases List.mem_cons.mp hrt with rfl | h2
      · have h0 : allowedTags.contains n = true := h (Tok.tagC n) (List.mem_cons_self _ _)
        obtain ⟨_, _, _, _, _, hscript⟩ := allowedTags_facts n (mem_of_contains h0)
        show (allowedTags.contains n && !(n == ofStr "script") &&
          ([] : List (Str × Str)).all fun p =>
            allowedAttrs.contains p.1 && !((ofStr "on").isPrefixOf p.1)) = true
        rw [h0, show (!(n == ofStr "script")) = true from by simp [hscript]]
        rfl
      · exact ihr rt h2

/-- C1: `renderForPreview` renders empty input as the empty string and
otherwise sanitizes the classified conversion of the content; the
sanitizer is applied on every branch (HTML passthrough, Markdown
conversion, plain text), so no branch returns markup that did not pass
through `sanitizeHtml`. -/
theorem c1_always_sanitized :
    renderForPreview [] = [] ∧
    (∀ content : Str, content ≠ [] →
      renderForPreview content = sanitizeHtml (toHtmlFromContent content)) ∧
    (∀ content : Str, content ≠ [] → isLikelyHtml content = true →
      renderForPreview content = sanitizeHtml content) ∧
    (∀ content : Str, content ≠ [] → isLikelyHtml content = false →
      looksLikeMarkdown content = true →
      renderForPreview content = sanitizeHtml (simpleMarkdownToHtml content)) ∧
    (∀ content : Str, content ≠ [] → isLikelyHtml content = false →
      looksLikeMarkdown content = false →
      renderForPreview content = sanitizeHtml (toHtmlFromPlainText content)) := by
  refine ⟨rfl, ?_, ?_, ?_, ?_⟩
  · intro c hc
    show (if c = [] then [] else sanitizeHtml (toHtmlFromContent c)) = _
    rw [if_neg hc]
  · intro c hc hh
    show (if c = [] then [] else sanitizeHtml (toHtmlFromContent c)) = _
    rw [if_neg hc]
    show sanitizeHtml (if c = [] then [] else if isLikelyHtml c = true then c
      else if looksLikeMarkdown c = true then simpleMarkdownToHtml c
      else toHtmlFromPlainText c) = _
    rw [if_neg hc, if_pos hh]
  · intro c hc hh hm
    show (if c = [] then [] else sanitizeHtml (toHtmlFromContent c)) = _
    rw [if_neg hc]
    show sanitizeHtml (if c = [] then [] else if isLikelyHtml c = true then c
      else if looksLikeMarkdown c = true then simpleMarkdownToHtml c
      else toHtmlFromPlainText c) = _
    rw [if_neg hc, if_neg (by simp [hh]), if_pos hm]
  · intro c hc hh hm
    show (if c = [] then [] else sanitizeHtml (toHtmlFromContent c)) = _
    rw [if_neg hc]
    show sanitizeHtml (if c = [] then [] else if isLikelyHtml c = true then c
      else if looksLikeMarkdown c = true then simpleMarkdownToHtml c
      else toHtmlFromPlainText c) = _
    rw [if_neg hc, if_neg (by simp [hh]), if_neg (by simp [hm])]

/-- Witness for C1 at one input per non-empty branch. -/
theorem c1_always_sanitized_witness :
    renderForPreview (ofStr "<b>x</b>") = sanitizeHtml (ofStr "<b>x</b>") ∧
    renderForPreview (ofStr "# t") = sanitizeHtml (simpleMarkdownToHtml (ofStr "# t")) ∧
    renderForPreview (ofStr "x") = sanitizeHtml (toHtmlFromPlainText (ofStr "x")) :=
  ⟨c1_always_sanitized.2.2.1 _ (by decide) (by decide),
   c1_always_sanitized.2.2.2.1 _ (by decide) (by decide) (by decide),
   c1_always_sanitized.2.2.2.2 _ (by decide) (by decide) (by decide)⟩

/-- C2: every token of sanitized output is safe — no script element, no
event-handler attribute, no tag or attribute outside the allow-lists —
and on the claim's example the output is exactly `Hello`, containing
`Hello` and no script tag. -/
theorem c2_sanitizer_safety :
    (∀ s : Str, ∀ rt ∈ tokenizeF (sanitizeHtml s).length (sanitizeHtml s),
      rawTokOk rt = true) ∧
    renderForPreview (ofStr "<script>alert(1)</script>Hello") = ofStr "Hello" ∧
    hasSub (ofStr "Hello")
      (renderForPreview (ofStr "<script>alert(1)</script>Hello")) = true ∧
    hasSub (ofStr "<script")
      (renderForPreview (ofStr "<script>alert(1)</script>Hello")) = false := by
  refine ⟨?_, by decide, by decide, by decide⟩
  intro s rt hrt
  have hok := sanTokens_ok s
  rw [show sanitizeHtml s = renderToks (sanTokens s) from rfl,
    retok _ hok.1 hok.2 _ le_rfl] at hrt
  exact rawOf_ok _ hok.1 rt hrt

/-- Witness for C2: a token of the sanitized output of `<b>hi</b>`. -/
theorem c2_sanitizer_safety_witness :
    rawTokOk (RawTok.rtag false (ofStr "b") []) = true :=
  c2_sanitizer_safety.1 (ofStr "<b>hi</b>") (RawTok.rtag false (ofStr "b") []) (by decide)

/-- C3 counterexample: `renderForPreview` is not idempotent — on the
already-rendered output `<p>hi</p>` of the input `<blink>hi</blink>`
(the blink element is dropped, leaving bare text that is re-wrapped in a
paragraph on the second pass, since `hi` is not classified as HTML) a
second application changes the string again. -/
theorem c3_counterexample :
    renderForPreview (renderForPreview (ofStr "<blink>hi</blink>")) ≠
      renderForPreview (ofStr "<blink>hi</blink>") := by decide

/-- C3 (amended): sanitization is idempotent for every string, and
`renderForPreview` is a stable fixed point on outputs that are empty or
classified as HTML (outputs of the HTML passthrough branch in
particular); it is not idempotent on outputs the classifier does not
judge to be HTML. -/
theorem c3_sanitize_idem :
    (∀ s : Str, sanitizeHtml (sanitizeHtml s) = sanitizeHtml s) ∧
    (∀ s : Str, renderForPreview s = [] ∨ isLikelyHtml (renderForPreview s) = true →
      renderForPreview (renderForPreview s) = renderForPreview s) := by
  refine ⟨sanitize_idem, ?_⟩
  intro s h
  rcases h with h | h
  · rw [h]; rfl
  · have hne : renderForPreview s ≠ [] := by
      intro hc; rw [hc] at h; cases h
    have hsne : s ≠ [] := by
      intro hc
      rw [hc] at hne
      exact hne rfl
    have hrfp : renderForPreview s = sanitizeHtml (toHtmlFromContent s) := by
      show (if s = [] then [] else sanitizeHtml (toHtmlFromContent s)) = _
      rw [if_neg hsne]
    show (if renderForPreview s = [] then []
      else sanitizeHtml (toHtmlFromContent (renderForPreview s))) = _
    rw [if_neg hne]
    rw [show toHtmlFromContent (renderForPreview s) = renderForPreview s from by
      show (if renderForPreview s = [] then []
        else if isLikelyHtml (renderForPreview s) = true then renderForPreview s
        else if looksLikeMarkdown (renderForPreview s) = true then
          simpleMarkdownToHtml (renderForPreview s)
        else toHtmlFromPlainText (renderForPreview s)) = _
      rw [if_neg hne, if_pos h]]
    rw [hrfp, sanitize_idem]

/-- Witness for C3 on the HTML-classified output of input `hi`. -/
theorem c3_sanitize_idem_witness :
    renderForPreview (renderForPreview (ofStr "hi")) = renderForPreview (ofStr "hi") :=
  c3_sanitize_idem.2 (ofStr "hi") (Or.inr (by decide))

/-- Arithmetic characterization of the whitespace class. -/
theorem isWs_iff_toNat (c : Char) : isWs c = true ↔
    (c.toNat = 9 ∨ c.toNat = 10 ∨ c.toNat = 11 ∨ c.toNat = 12 ∨ c.toNat = 13 ∨
     c.toNat = 32 ∨ c.toNat = 160 ∨ c.toNat = 5760 ∨
     (8192 ≤ c.toNat ∧ c.toNat ≤ 8202) ∨ c.toNat = 8232 ∨ c.toNat = 8233 ∨
     c.toNat = 8239 ∨ c.toNat = 8287 ∨ c.toNat = 12288 ∨ c.toNat = 65279) := by
  simp [isWs]
  tauto

/-- Whitespace characters are not digits. -/
theorem isWs_not_digit (c : Char) (h : isWs c = true) : c.isDigit = false := by
  rw [Bool.eq_false_iff]
  intro hd
  have h9 : 48 ≤ c.toNat ∧ c.toNat ≤ 57 := by
    simpa [Char.isDigit, Char.le_def, Char.toNat] using hd
  rw [isWs_iff_toNat] at h
  omega

/-- A whitespace character differs from any non-whitespace character. -/
theorem ws_beq_char (a : Char) (ha : isWs a = true) (b : Char) (hb : isWs b = false) :
    (a == b) = false := by
  rw [beq_eq_false_iff_ne]
  intro hc
  rw [hc] at ha
  rw [ha] at hb
  cases hb

/-- No heading marker in whitespace-only text. -/
theorem pHeading_ws (s : Str) (h : ∀ c ∈ s, isWs c = true) : pHeading s = false := by
  cases s with
  | nil => rfl
  | cons c rest =>
    have hc := ws_beq_char c (h c (List.mem_cons_self _ _)) '#' (by decide)
    show pHeading (c :: rest) = false
    rw [pHeading]
    rw [show List.takeWhile (fun x => x == '#') (c :: rest) = [] from by
      rw [List.takeWhile_cons, hc]
      rfl]
    rfl

/-- No star bullet in whitespace-only text. -/
theorem pStar_ws (s : Str) (h : ∀ c ∈ s, isWs c = true) : pStar s = false := by
  rw [pStar.eq_def]
  split
  · exfalso
    have := h '*' (List.mem_cons_self _ _)
    exact absurd this (by decide)
  · rfl

/-- No dash bullet in whitespace-only text. -/
theorem pDash_ws (s : Str) (h : ∀ c ∈ s, isWs c = true) : pDash s = false := by
  rw [pDash.eq_def]
  split
  · exfalso
    have := h '-' (List.mem_cons_self _ _)
    exact absurd this (by decide)
  · rfl

/-- No blockquote marker in whitespace-only text. -/
theorem pQuote_ws (s : Str) (h : ∀ c ∈ s, isWs c = true) : pQuote s = false := by
  rw [pQuote.eq_def]
  split
  · exfalso
    have := h '>' (List.mem_cons_self _ _)
    exact absurd this (by decide)
  · rfl

/-- No ordered-list marker in whitespace-only text. -/
theorem pOrdered_ws (s : Str) (h : ∀ c ∈ s, isWs c = true) : pOrdered s = false := by
  cases s with
  | nil => rfl
  | cons c rest =>
    have hc := isWs_not_digit c (h c (List.mem_cons_self _ _))
    show pOrdered (c :: rest) = false
    rw [pOrdered]
    rw [show List.takeWhile (fun x => x.isDigit) (c :: rest) = [] from by
      rw [List.takeWhile_cons, hc]
      rfl]
    rfl

/-- Whitespace characters are not backticks. -/
theorem ws_not_tick (c : Char) (h : isWs c = true) : isTick c = false := by
  have hn : ¬c.toNat = 96 := by
    rw [isWs_iff_toNat] at h
    omega
  simp [isTick, hn]

/-- No code fence in whitespace-only text. -/
theorem pFence_ws (s : Str) (h : ∀ c ∈ s, isWs c = true) : pFence s = false := by
  rw [pFence.eq_def]
  split
  · rename_i a b c2 r
    have := ws_not_tick a (h a (List.mem_cons_self _ _))
    rw [this]
    rfl
  · rfl

/-- No bold span in whitespace-only text. -/
theorem boldAt_ws (s : Str) (h : ∀ c ∈ s, isWs c = true) : boldAt s = false := by
  rw [boldAt.eq_def]
  split
  · exfalso
    have := h '*' (List.mem_cons_self _ _)
    exact absurd this (by decide)
  · rfl

/-- No italic span in whitespace-only text. -/
theorem italAt_ws (s : Str) (h : ∀ c ∈ s, isWs c = true) : italAt s = false := by
  rw [italAt.eq_def]
  split
  · exfalso
    have := h '*' (List.mem_cons_self _ _)
    exact absurd this (by decide)
  · rfl

/-- No code span at the start of whitespace-only text. -/
theorem codeAt_ws (s : Str) (h : ∀ c ∈ s, isWs c = true) : codeAt s = false := by
  rw [codeAt.eq_def]
  split
  · rename_i c rest
    have := ws_not_tick c (h c (List.mem_cons_self _ _))
    rw [this]
    rfl
  · rfl

/-- A line-start pattern failing on whitespace-only text fails after every line terminator. -/
theorem lineStartScan_ws (p : Str → Bool)
    (hp : ∀ t : Str, (∀ c ∈ t, isWs c = true) → p t = false) :
    ∀ s : Str, (∀ c ∈ s, isWs c = true) → lineStartScan p s = false := by
  intro s
  induction s with
  | nil => intro _; rfl
  | cons c rest ih =>
    intro h
    have ht : ∀ c ∈ rest, isWs c = true := fun x hx => h x (List.mem_cons_of_mem _ hx)
    show (isLineTerm c && p rest || lineStartScan p rest) = false
    rw [hp rest ht, ih ht]
    simp

/-- A line-start pattern failing on whitespace-only text fails everywhere. -/
theorem anyLineStart_ws (p : Str → Bool)
    (hp : ∀ t : Str, (∀ c ∈ t, isWs c = true) → p t = false)
    (s : Str) (h : ∀ c ∈ s, isWs c = true) : anyLineStart p s = false := by
  rw [anyLineStart, hp s h, lineStartScan_ws p hp s h]
  rfl

/-- No bold span anywhere in whitespace-only text. -/
theorem hasBold_ws (s : Str) (h : ∀ c ∈ s, isWs c = true) : hasBold s = false := by
  induction s with
  | nil => rfl
  | cons c rest ih =>
    have ht : ∀ x ∈ rest, isWs x = true := fun x hx => h x (List.mem_cons_of_mem _ hx)
    show (boldAt (c :: rest) || hasBold rest) = false
    rw [boldAt_ws _ h, ih ht]
    rfl

/-- No italic span anywhere in whitespace-only text. -/
theorem hasItal_ws (s : Str) (h : ∀ c ∈ s, isWs c = true) : hasItal s = false := by
  induction s with
  | nil => rfl
  | cons c rest ih =>
    have ht : ∀ x ∈ rest, isWs x = true := fun x hx => h x (List.mem_cons_of_mem _ hx)
    show (italAt (c :: rest) || hasItal rest) = false
    rw [italAt_ws _ h, ih ht]
    rfl

/-- No code span anywhere in whitespace-only text. -/
theorem hasCode_ws (s : Str) (h : ∀ c ∈ s, isWs c = true) : hasCode s = false := by
  induction s with
  | nil => rfl
  | cons c rest ih =>
    have ht : ∀ x ∈ rest, isWs x = true := fun x hx => h x (List.mem_cons_of_mem _ hx)
    show (codeAt (c :: rest) || hasCode rest) = false
    rw [codeAt_ws _ h, ih ht]
    rfl

/-- Whitespace-only text is not classified as Markdown. -/
theorem looksLikeMarkdown_ws (s : Str) (h : ∀ c ∈ s, isWs c = true) :
    looksLikeMarkdown s = false := by
  rw [looksLikeMarkdown,
    anyLineStart_ws pHeading pHeading_ws s h,
    anyLineStart_ws pStar pStar_ws s h,
    anyLineStart_ws pDash pDash_ws s h,
    anyLineStart_ws pOrdered pOrdered_ws s h,
    anyLineStart_ws pFence pFence_ws s h,
    anyLineStart_ws pQuote pQuote_ws s h,
    hasBold_ws s h, hasItal_ws s h, hasCode_ws s h]
  rfl

/-- Whitespace-only text contains no tag start. -/
theorem noTagStart_of_ws (s : Str) (h : ∀ c ∈ s, isWs c = true) : noTagStart s = true := by
  induction s with
  | nil => rfl
  | cons c rest ih =>
    have ht : ∀ x ∈ rest, isWs x = true := fun x hx => h x (List.mem_cons_of_mem _ hx)
    cases rest with
    | nil => rfl
    | cons d r =>
      have hcne := ws_beq_char c (h c (List.mem_cons_self _ _)) '<' (by decide)
      simp only [noTagStart, hcne, Bool.false_and, Bool.not_false, Bool.true_and]
      exact ih ht

/-- Characters after CRLF normalization come from the input or are newlines. -/
theorem crlfToLf_mem (s : Str) : ∀ c ∈ crlfToLf s, c ∈ s ∨ c = '\n' := by
  induction s using crlfToLf.induct with
  | case1 => intro c hc; cases hc
  | case2 rest ih =>
    intro c hc
    show c ∈ '\r' :: '\n' :: rest ∨ c = '\n'
    rcases List.mem_cons.mp hc with rfl | h2
    · exact Or.inr rfl
    · rcases ih c h2 with hm | he
      · exact Or.inl (List.mem_cons_of_mem _ (List.mem_cons_of_mem _ hm))
      · exact Or.inr he
  | case3 d rest hne ih =>
    intro c hc
    rw [crlfToLf.eq_3 d rest hne] at hc
    rcases List.mem_cons.mp hc with rfl | h2
    · exact Or.inl (List.mem_cons_self _ _)
    · rcases ih c h2 with hm | he
      · exact Or.inl (List.mem_cons_of_mem _ hm)
      · exact Or.inr he

/-- Characters after CR normalization come from the input or are newlines. -/
theorem crToLf_mem (s : Str) : ∀ c ∈ crToLf s, c ∈ s ∨ c = '\n' := by
  induction s with
  | nil => intro c hc; cases hc
  | cons d rest ih =>
    intro c hc
    show c ∈ d :: rest ∨ c = '\n'
    rcases List.mem_cons.mp hc with rfl | h2
    · by_cases hd : d = '\r'
      · rw [if_pos hd]
        exact Or.inr rfl
      · rw [if_neg hd]
        exact Or.inl (List.mem_cons_self _ _)
    · rcases ih c h2 with hm | he
      · exact Or.inl (List.mem_cons_of_mem _ hm)
      · exact Or.inr he

/-- Line-ending normalization preserves non-NBSP whitespace-only strings membership-wise. -/
theorem normNl_ws (s : Str) (h : ∀ c ∈ s, isWs c = true ∧ ¬c.toNat = 160) :
    ∀ c ∈ normNl s, isWs c = true ∧ ¬c.toNat = 160 := by
  intro c hc
  rcases crToLf_mem _ c hc with h1 | he
  · rcases crlfToLf_mem _ c h1 with h2 | he
    · exact h c h2
    · rw [he]; exact ⟨by decide, by decide⟩
  · rw [he]; exact ⟨by decide, by decide⟩

/-- Text serialization fixes whitespace-only strings without NBSP. -/
theorem escapeHtml_ws_id (s : Str) (h : ∀ c ∈ s, isWs c = true ∧ ¬c.toNat = 160) :
    escapeHtml s = s := by
  induction s with
  | nil => rfl
  | cons c rest ih =>
    show escChar c ++ escapeHtml rest = c :: rest
    obtain ⟨h1, h2⟩ := h c (List.mem_cons_self _ _)
    rw [escChar_of_ws c h1 h2, ih (fun x hx => h x (List.mem_cons_of_mem _ hx)),
      List.singleton_append]

/-- Trimming a whitespace-only string yields the empty string. -/
theorem jsTrim_ws (p : Str) (h : ∀ c ∈ p, isWs c = true) : jsTrim p = [] := by
  show trimR (List.dropWhile isWs p) = []
  rw [List.dropWhile_eq_nil_iff.mpr h]
  rfl

/-- The plain-text converter sends non-NBSP whitespace-only input to the empty string. -/
theorem toHtmlFromPlainText_ws (s : Str)
    (h : ∀ c ∈ s, isWs c = true ∧ ¬c.toNat = 160) :
    toHtmlFromPlainText s = [] := by
  by_cases hs : s = []
  · rw [hs]; rfl
  show (if s = [] then [] else joinAll (((splitSep (escapeHtml (normNl s))).filter
      (fun p => !(jsTrim p).isEmpty)).map
    (fun p => wrapP (nlToBr (jsTrim p))))) = []
  rw [if_neg hs]
  have hnn := normNl_ws s h
  rw [escapeHtml_ws_id _ hnn]
  have hfil : (splitSep (normNl s)).filter (fun p => !(jsTrim p).isEmpty) = [] := by
    rw [List.filter_eq_nil_iff]
    intro p hp
    have hall : ∀ c ∈ p, isWs c = true :=
      fun c hc => (hnn c (splitSep_mem _ p hp c hc)).1
    rw [jsTrim_ws p hall]
    decide
  rw [hfil]
  rfl

/-- C10 counterexample: the non-breaking space is a whitespace-only
non-empty input, yet `renderForPreview` returns a non-breaking-space
paragraph, not the empty string: the escaper turns NBSP into the
non-blank text `&nbsp;`, which survives the blank-paragraph filter. -/
theorem c10_counterexample :
    ofStr "\u00A0" ≠ [] ∧ (∀ c ∈ ofStr "\u00A0", isWs c = true) ∧
      renderForPreview (ofStr "\u00A0") = ofStr "<p>&nbsp;</p>" :=
  ⟨by decide, by decide, by decide⟩

/-- C10 (amended): every non-empty input of whitespace characters other
than the non-breaking space renders to the empty string — it matches
neither classifier, and the plain-text converter filters out its only
(blank) paragraph. -/
theorem c10_ws_only_empty (s : Str) (hne : s ≠ [])
    (h : ∀ c ∈ s, isWs c = true ∧ ¬c.toNat = 160) :
    renderForPreview s = [] := by
  have hws : ∀ c ∈ s, isWs c = true := fun c hc => (h c hc).1
  have hhtml : isLikelyHtml s = false := c9_aux s.length s le_rfl (noTagStart_of_ws s hws)
  have hmd : looksLikeMarkdown s = false := looksLikeMarkdown_ws s hws
  show (if s = [] then [] else sanitizeHtml (toHtmlFromContent s)) = []
  rw [if_neg hne]
  show sanitizeHtml (if s = [] then [] else if isLikelyHtml s = true then s
    else if looksLikeMarkdown s = true then simpleMarkdownToHtml s
    else toHtmlFromPlainText s) = []
  rw [if_neg hne, if_neg (by simp [hhtml]), if_neg (by simp [hmd]),
    toHtmlFromPlainText_ws s h]
  rfl

/-- Witness for C10 at a single space. -/
theorem c10_ws_only_empty_witness :
    ofStr " " ≠ [] ∧ renderForPreview (ofStr " ") = [] :=
  ⟨by decide, c10_ws_only_empty (ofStr " ") (by decide) (by decide)⟩
